import Mathlib

/-!
# qlitch: batch-mode `glitch` and `main` (src/main.cpp), and the header scan
and single-bit update of the interactive program (src/qlitch/mainwindow.cpp)

The C `double` computations of `main.cpp` are embedded as IEEE-754 binary64
arithmetic: every finite double is a rational number, and each arithmetic
operation returns the exact rational result rounded to the nearest double,
ties to even (`fl`).  Infinities and NaN are not represented; none can
arise from the operands used below.

`long` values are integers (`ℤ`); the `int` arithmetic of the interactive
region start wraps at 32 bits; bytes are natural numbers, and a store into
an `unsigned char` reduces modulo 256.
-/

namespace Qlitch

/-! ## binary64 rounding -/

/-- Round a rational to the nearest integer, ties to the even integer. -/
def roundHalfEven (x : ℚ) : ℤ :=
  let f := ⌊x⌋
  let r := x - f
  if r < 1 / 2 then f else if 1 / 2 < r then f + 1 else if f % 2 = 0 then f else f + 1

/-- Exponent of the unit in the last place of the double nearest to `q`:
53 significant bits in the normal range, `2^-1074` in the subnormal range. -/
def ulpExp (q : ℚ) : ℤ := max (Int.log 2 |q| - 52) (-1074)

/-- The double nearest to the rational `q` (round to nearest, ties to even). -/
def fl (q : ℚ) : ℚ :=
  if q = 0 then 0 else roundHalfEven (q / (2 : ℚ) ^ ulpExp q) * (2 : ℚ) ^ ulpExp q

/-- Conversion `(long) x` of a double: truncation toward zero. -/
def toLong (x : ℚ) : ℤ := if 0 ≤ x then ⌊x⌋ else -⌊-x⌋

/-! ## src/main.cpp -/

/-- The enum `ALGORITHMS` of main.cpp. -/
inductive ALGORITHMS where
  | ALGORITHM_OR
  | ALGORITHM_XOR
  deriving DecidableEq, Repr

/-- Template `MIN` of main.cpp, at type `double`. -/
def MIN (x y : ℚ) : ℚ := if x > y then y else x

/-- Template `MAX` of main.cpp, at type `double`. -/
def MAX (x y : ℚ) : ℚ := if x < y then y else x

/-- The libm function `fabs`: exact on doubles. -/
def fabs (x : ℚ) : ℚ := |x|

/-- Function `fuzzyEqual` of main.cpp:
`fabs(x - y) <= (0.000000000001 * MIN(fabs(x), fabs(y)))`. -/
def fuzzyEqual (x y : ℚ) : Bool :=
  decide (fabs (fl (x - y)) ≤ fl (fl (1 / 10 ^ 12) * MIN (fabs x) (fabs y)))

/-- The state of the C library generator: the sequence of values that
successive calls of `rand()` return, and how many calls were made. -/
structure Rng where
  draws : ℕ → ℕ
  next : ℕ

/-- One call of `rand()`. -/
def rand (g : Rng) : ℕ × Rng := (g.draws g.next, ⟨g.draws, g.next + 1⟩)

/-- Function `random` of main.cpp.  `RAND_MAX` comes from `<cstdlib>`.
`rand()` is called only when the two bounds are not fuzzily equal. -/
def random (RAND_MAX : ℕ) (x y : ℚ) (g : Rng) : ℚ × Rng :=
  if fuzzyEqual x y then (x, g)
  else
    let hi := MAX x y
    let lo := MIN x y
    let r := rand g
    (fl (lo + fl (fl (fl (hi - lo) * fl (r.1 : ℚ)) / fl (fl (RAND_MAX : ℚ) + 1))), r.2)

/-- The heap block `buf` of `sz` bytes together with the bytes of the heap
around it, addressed by their offset from `buf`.  An access at an offset
outside `[0, sz)` is undefined behaviour in C: `intact` records that no such
access has happened yet.  Once it is `false` the heap is corrupted and the
run has no defined output any more; the passes of the loop that follow are
still listed, with the offsets they go on to access. -/
structure Memory where
  buf : List ℕ
  heap : ℤ → ℕ
  intact : Bool

/-- Whether `buf[pos]` is inside the block. -/
def Memory.inBounds (m : Memory) (pos : ℤ) : Prop := 0 ≤ pos ∧ pos < (m.buf.length : ℤ)

instance (m : Memory) (pos : ℤ) : Decidable (m.inBounds pos) := by
  unfold Memory.inBounds; infer_instance

/-- Read `buf[pos]`. -/
def Memory.read (m : Memory) (pos : ℤ) : ℕ :=
  if m.inBounds pos then m.buf.getD pos.toNat 0 else m.heap pos

/-- Store `buf[pos] = v`.  A store outside the block overwrites a byte of
the heap and leaves the memory corrupted. -/
def Memory.write (m : Memory) (pos : ℤ) (v : ℕ) : Memory :=
  if m.inBounds pos then ⟨m.buf.set pos.toNat v, m.heap, m.intact⟩
  else ⟨m.buf, Function.update m.heap pos v, false⟩

/-- One line `glitching at position pos:bit (old->new)` printed by `glitch`. -/
structure Record where
  pos : ℤ
  bit : ℕ
  oldByte : ℕ
  newByte : ℕ
  deriving DecidableEq, Repr

/-- The `switch (algorithm)` of the loop body: `newByte ^= (1 << bit)` or
`newByte |= (1 << bit)`, stored into an `unsigned char`. -/
def applyAlgorithm (algorithm : ALGORITHMS) (oldByte bit : ℕ) : ℕ :=
  match algorithm with
  | .ALGORITHM_XOR => (oldByte ^^^ (1 <<< bit)) % 256
  | .ALGORITHM_OR => (oldByte ||| (1 <<< bit)) % 256

/-- Lines 150-163 of main.cpp: read `buf[pos]`, combine it with the mask,
store it back and print the record. -/
def mutate (algorithm : ALGORITHMS) (m : Memory) (pos : ℤ) (bit : ℕ) : Memory × Record :=
  let oldByte := m.read pos
  let newByte := applyAlgorithm algorithm oldByte bit
  (m.write pos newByte, ⟨pos, bit, oldByte, newByte⟩)

/-- Region start of `glitch`: `(long)(1e-2 * sz * percent)`. -/
def firstPos (sz : ℤ) (percent : ℚ) : ℤ :=
  toLong (fl (fl (fl (1 / 100) * fl (sz : ℚ)) * percent))

/-- What the loop of `glitch` carries from one iteration to the next. -/
structure LoopState where
  mem : Memory
  rng : Rng
  log : List Record

/-- One iteration of the `for` loop of `glitch`. -/
def glitchIter (RAND_MAX : ℕ) (algorithm : ALGORITHMS) (first sz : ℤ) (s : LoopState) :
    LoopState :=
  let x := random RAND_MAX (fl (first : ℚ)) (fl (sz : ℚ)) s.rng
  let pos := toLong x.1
  let r := rand x.2
  let bit := r.1 % 8
  let w := mutate algorithm s.mem pos bit
  ⟨w.1, r.2, s.log ++ [w.2]⟩

/-- The loop `for (int i = 0; i < iterations; ++i)`: the loop body, `n` times over. -/
def glitchLoop (RAND_MAX : ℕ) (algorithm : ALGORITHMS) (first sz : ℤ) (n : ℕ) (s : LoopState) :
    LoopState :=
  Nat.iterate (glitchIter RAND_MAX algorithm first sz) n s

/-- What a run of `glitch` leaves behind: the bytes written to `outfile`,
which are defined only when no pass accessed a byte outside the block, and
the records printed. -/
structure GlitchResult where
  output : Option (List ℕ)
  log : List Record

/-- Function `glitch` of main.cpp (POSIX branch): `input` is the content of
`infile`, `heap` the bytes around the block that `malloc` returned, `draws`
the sequence that `rand()` yields after `srand(n)`. -/
def glitch (RAND_MAX : ℕ) (percent : ℚ) (iterations : ℤ) (algorithm : ALGORITHMS)
    (input : List ℕ) (heap : ℤ → ℕ) (draws : ℕ → ℕ) : GlitchResult :=
  let sz : ℤ := input.length
  let first := firstPos sz percent
  let s := glitchLoop RAND_MAX algorithm first sz iterations.toNat
    ⟨⟨input, heap, true⟩, ⟨draws, 0⟩, []⟩
  ⟨if s.mem.intact then some s.mem.buf else none, s.log⟩

/-- Bit positions, among the eight of a byte, in which `a` and `b` differ. -/
def bitDiff (a b : ℕ) : ℕ :=
  ((List.range 8).filter (fun k => a.testBit k != b.testBit k)).length

/-- Total number of bit positions in which two buffers differ. -/
def hammingDist (xs ys : List ℕ) : ℕ := (List.zipWith bitDiff xs ys).sum

/-! ### `main` -/

/-- Macro `EXIT_SUCCESS` of `<cstdlib>`. -/
def EXIT_SUCCESS : ℤ := 0

/-- Macro `EXIT_FAILURE` of `<cstdlib>`. -/
def EXIT_FAILURE : ℤ := 1

/-- Enumerator `SELECT_HELP` of `_long_options`. -/
def SELECT_HELP : ℤ := 0

/-- Enumerator `SELECT_PERCENT` of `_long_options`. -/
def SELECT_PERCENT : ℤ := 1

/-- Enumerator `SELECT_IN` of `_long_options`. -/
def SELECT_IN : ℤ := 2

/-- Enumerator `SELECT_OUT` of `_long_options`. -/
def SELECT_OUT : ℤ := 3

/-- Enumerator `SELECT_ITERATIONS` of `_long_options`. -/
def SELECT_ITERATIONS : ℤ := 4

/-- Enumerator `SELECT_QUIET` of `_long_options`. -/
def SELECT_QUIET : ℤ := 5

/-- Enumerator `SELECT_VERBOSE` of `_long_options`. -/
def SELECT_VERBOSE : ℤ := 6

/-- Enumerator `SELECT_ALGORITHM` of `_long_options`. -/
def SELECT_ALGORITHM : ℤ := 7

/-- Character code of the option letter `i`. -/
def CHAR_i : ℤ := 105

/-- Character code of the option letter `p`. -/
def CHAR_p : ℤ := 112

/-- Character code of the option letter `a`. -/
def CHAR_a : ℤ := 97

/-- Character code of the option letter `h`. -/
def CHAR_h : ℤ := 104

/-- Character code of the question mark, which `getopt_long` also returns
for an option it does not recognize. -/
def CHAR_question : ℤ := 63

/-- Character code of the option letter `v`. -/
def CHAR_v : ℤ := 118

/-- Character code of the option letter `q`. -/
def CHAR_q : ℤ := 113

/-- The file-scope variables of main.cpp that `main` assigns. -/
structure Config where
  verbose : ℤ
  iterations : ℤ
  quiet : Bool
  infile : Option String
  outfile : Option String
  percent : ℚ
  algorithm : ALGORITHMS

/-- The initializers of the file-scope variables. -/
def Config.initial : Config := ⟨0, 10, false, none, none, 10, .ALGORITHM_XOR⟩

/-- How a run of `main` ends: the exit code, whether `usage()` was printed,
and the configuration `glitch()` ran with when it was called. -/
structure Exit where
  code : ℤ
  usageShown : Bool
  glitched : Option Config

/-- One return of `getopt_long`: the value `c` and the string `optarg`. -/
structure OptEvent where
  c : ℤ
  optarg : String

/-- The `switch (c)` of `main`: either the updated variables, or the end of
the program.  `atoi` and `atof` are the C library conversions. -/
def handleOption (atoi : String → ℤ) (atof : String → ℚ) (cfg : Config) (e : OptEvent) :
    Config ⊕ Exit :=
  if e.c = SELECT_IN then .inl { cfg with infile := some e.optarg }
  else if e.c = SELECT_OUT then .inl { cfg with outfile := some e.optarg }
  else if e.c = CHAR_i ∨ e.c = SELECT_ITERATIONS then
    .inl { cfg with iterations := atoi e.optarg }
  else if e.c = CHAR_p ∨ e.c = SELECT_PERCENT then
    .inl { cfg with percent := atof e.optarg }
  else if e.c = CHAR_a ∨ e.c = SELECT_ALGORITHM then
    if e.optarg = "OR" then .inl { cfg with algorithm := .ALGORITHM_OR } else .inl cfg
  else if e.c = CHAR_h ∨ e.c = CHAR_question ∨ e.c = SELECT_HELP then
    .inr ⟨0, true, none⟩
  else if e.c = SELECT_VERBOSE ∨ e.c = CHAR_v then
    .inl { cfg with verbose := cfg.verbose + 1 }
  else if e.c = SELECT_QUIET ∨ e.c = CHAR_q then
    .inl { cfg with quiet := true }
  else .inr ⟨EXIT_FAILURE, true, none⟩

/-- The `for (;;)` loop of `main` over the successive returns of
`getopt_long`; the end of the list stands for the return value `-1`. -/
def parseLoop (atoi : String → ℤ) (atof : String → ℚ) : Config → List OptEvent → Config ⊕ Exit
  | cfg, [] => .inl cfg
  | cfg, e :: rest =>
    if e.c = -1 then .inl cfg
    else
      match handleOption atoi atof cfg e with
      | .inl cfg1 => parseLoop atoi atof cfg1 rest
      | .inr x => .inr x

/-- Lines 222-237 of main.cpp: the checks after the option loop, then the
call of `glitch()`. -/
def validate (cfg : Config) : Exit :=
  if cfg.infile = none ∨ cfg.outfile = none then ⟨EXIT_FAILURE, true, none⟩
  else if cfg.percent ≥ 100 then ⟨EXIT_FAILURE, true, none⟩
  else if cfg.iterations < 1 then ⟨EXIT_FAILURE, true, none⟩
  else ⟨EXIT_SUCCESS, false, some cfg⟩

/-- Function `main`, started with the variables in state `cfg`. -/
def mainFrom (atoi : String → ℤ) (atof : String → ℚ) (cfg : Config) (events : List OptEvent) :
    Exit :=
  match parseLoop atoi atof cfg events with
  | .inl cfg1 => validate cfg1
  | .inr x => x

/-- Function `main` of main.cpp. -/
def main (atoi : String → ℤ) (atof : String → ℚ) (events : List OptEvent) : Exit :=
  mainFrom atoi atof Config.initial events

/-! ## src/qlitch/mainwindow.cpp -/

/-- The loop `for (int i = 0; i < raw.size() - 1; ++i)` of
`updateImageWidget`, by the number of passes left; `none` stands for a call
of `raw.at` with an index outside `[0, size)`. -/
def headerLoop (raw : List ℕ) : ℕ → ℕ → Option ℕ
  | _, 0 => some 0
  | i, n + 1 =>
    match raw[i]? with
    | none => none
    | some a =>
      if a = 0xFF then
        match raw[i + 1]? with
        | none => none
        | some b => if b = 0xDA then some (i + 2) else headerLoop raw (i + 1) n
      else headerLoop raw (i + 1) n

/-- The value of `headerSize` after the scan. -/
def headerSize (raw : List ℕ) : Option ℕ := headerLoop raw 0 (raw.length - 1)

/-- The enum `Algorithm` of the interactive program (declared in main.h). -/
inductive Algorithm where
  | ALGORITHM_NONE
  | ALGORITHM_XOR
  | ALGORITHM_ONE
  | ALGORITHM_ZERO
  deriving DecidableEq, Repr

/-- A value of type `int`: the integer `x` reduced to 32 bits in two's
complement, which is what the arithmetic instructions leave on overflow. -/
def wrap32 (x : ℤ) : ℤ := (x + 2 ^ 31) % 2 ^ 32 - 2 ^ 31

/-- Division `a / b` of two `int` values: truncation toward zero; `none`
where the division traps (divisor zero, or `INT_MIN / -1`). -/
def divInt (a b : ℤ) : Option ℤ :=
  if b = 0 ∨ (a = -2 ^ 31 ∧ b = -1) then none else some (Int.tdiv a b)

/-- Region start of `updateImageWidget`:
`headerSize + (raw.size() - headerSize) * (value - minimum) / (maximum - minimum)`
in 32-bit `int` arithmetic. -/
def guiFirstPos (size hdr value minimum maximum : ℤ) : Option ℤ :=
  match divInt (wrap32 (wrap32 (size - hdr) * wrap32 (value - minimum)))
      (wrap32 (maximum - minimum)) with
  | none => none
  | some q => some (wrap32 (hdr + q))

/-- The `switch (d->algorithm)` of `updateImageWidget` on one byte, stored
into a `char` of the array. -/
def guiApply (algorithm : Algorithm) (old bit : ℕ) : ℕ :=
  match algorithm with
  | .ALGORITHM_ONE => (old ||| bit) % 256
  | .ALGORITHM_ZERO => ((Int.land (old : ℤ) (~~~(bit : ℤ))) % 256).toNat
  | _ => (old ^^^ bit) % 256

/-- The statement `raw[pos] = uchar(raw.at(pos)) op bit`; `none` when `pos`
is not an index of the array. -/
def guiStore (algorithm : Algorithm) (raw : List ℕ) (pos : ℤ) (bit : ℕ) : Option (List ℕ) :=
  if 0 ≤ pos ∧ pos < (raw.length : ℤ) then
    some (raw.set pos.toNat (guiApply algorithm (raw.getD pos.toNat 0) bit))
  else none

/-- The single-bit branch of `updateImageWidget` on the encoded image `raw`:
the new array and the new value of `flipBit`; `none` when the division traps
or an index outside the array is used. -/
def singleBitUpdate (algorithm : Algorithm) (raw : List ℕ) (value minimum maximum : ℤ)
    (flipBit : ℕ) : Option (List ℕ × ℕ) :=
  match headerSize raw with
  | none => none
  | some hdr =>
    match guiFirstPos raw.length hdr value minimum maximum with
    | none => none
    | some first =>
      let bit := (1 <<< (flipBit % 8)) % 256
      match guiStore algorithm raw first bit with
      | none => none
      | some out => some (out, (flipBit + 1) % 2 ^ 64)

/-! ## Predicates used in the statements -/

/-- A return value of `getopt_long` that the `switch` of `main` answers
with `usage(); return 0;`. -/
def isHelpEvent (e : OptEvent) : Prop := e.c = CHAR_h ∨ e.c = CHAR_question ∨ e.c = SELECT_HELP

/-- A return value of `getopt_long` for `-a` or `--algorithm`. -/
def isAlgorithmEvent (e : OptEvent) : Prop := e.c = CHAR_a ∨ e.c = SELECT_ALGORITHM

/-- The configuration fails one of the three checks after the option loop. -/
def Config.rejected (cfg : Config) : Prop :=
  cfg.infile = none ∨ cfg.outfile = none ∨ cfg.percent ≥ 100 ∨ cfg.iterations < 1

/-- The two-byte marker `FF DA` stands at index `i` of `raw`. -/
def markerAt (raw : List ℕ) (i : ℕ) : Prop := raw[i]? = some 0xFF ∧ raw[i + 1]? = some 0xDA

/-- The buffer `buf` after some passes of the loop, against the bytes
`input` that were read from the file: same length, equal below the region
start `first`, and at most `n` bit positions changed. -/
def Frame (input : List ℕ) (first : ℤ) (buf : List ℕ) (n : ℕ) : Prop :=
  buf.length = input.length ∧ (∀ i : ℕ, (i : ℤ) < first → buf[i]? = input[i]?) ∧
    hammingDist input buf ≤ n

/-! ## Properties of the rounding -/

theorem roundHalfEven_cases (x : ℚ) : roundHalfEven x = ⌊x⌋ ∨ roundHalfEven x = ⌊x⌋ + 1 := by
  unfold roundHalfEven
  simp only
  split_ifs <;> simp

theorem le_roundHalfEven (x : ℚ) (k : ℤ) (h : (k : ℚ) ≤ x) : k ≤ roundHalfEven x := by
  have hk : k ≤ ⌊x⌋ := Int.le_floor.mpr h
  rcases roundHalfEven_cases x with h1 | h1 <;> omega

theorem roundHalfEven_eq_of_near (x : ℚ) (m : ℤ) (h : |x - m| < 1 / 2) :
    roundHalfEven x = m := by
  have h1 := abs_lt.mp h
  have hf1 : (⌊x⌋ : ℚ) ≤ x := Int.floor_le x
  have hf2 : x < ⌊x⌋ + 1 := Int.lt_floor_add_one x
  unfold roundHalfEven
  simp only
  split_ifs with a b c
  · -- x - floor < 1/2, so floor = m
    have : (m : ℚ) - 1 < ⌊x⌋ := by linarith [h1.1, h1.2]
    have h3 : (⌊x⌋ : ℚ) < m + 1 := by linarith [h1.1, h1.2]
    have : m - 1 < ⌊x⌋ := by exact_mod_cast this
    have : ⌊x⌋ < m + 1 := by exact_mod_cast h3
    omega
  · have h2 : (m : ℚ) - 1 < ⌊x⌋ + 1 := by linarith [h1.1, h1.2]
    have h3 : (⌊x⌋ : ℚ) + 1 < m + 1 := by linarith [h1.1, h1.2]
    have : m - 1 < ⌊x⌋ + 1 := by exact_mod_cast h2
    have : ⌊x⌋ + 1 < m + 1 := by exact_mod_cast h3
    omega
  · exfalso
    have : x - ⌊x⌋ = 1 / 2 := le_antisymm (not_lt.mp b) (not_lt.mp a)
    have h2 : (m : ℚ) - 1 < ⌊x⌋ := by linarith [h1.1, h1.2]
    have h3 : (⌊x⌋ : ℚ) < m := by linarith [h1.1, h1.2]
    have : m - 1 < ⌊x⌋ := by exact_mod_cast h2
    have : ⌊x⌋ < m := by exact_mod_cast h3
    omega
  · exfalso
    have : x - ⌊x⌋ = 1 / 2 := le_antisymm (not_lt.mp b) (not_lt.mp a)
    have h2 : (m : ℚ) - 1 < ⌊x⌋ := by linarith [h1.1, h1.2]
    have h3 : (⌊x⌋ : ℚ) < m := by linarith [h1.1, h1.2]
    have : m - 1 < ⌊x⌋ := by exact_mod_cast h2
    have : ⌊x⌋ < m := by exact_mod_cast h3
    omega

theorem fl_zero : fl 0 = 0 := by simp [fl]

theorem two_zpow_pos (e : ℤ) : (0 : ℚ) < (2 : ℚ) ^ e := zpow_pos (by norm_num) e

theorem fl_nonneg (x : ℚ) (h : 0 ≤ x) : 0 ≤ fl x := by
  unfold fl
  split_ifs with h0
  · exact le_refl 0
  · have hu := two_zpow_pos (ulpExp x)
    have : (0 : ℤ) ≤ roundHalfEven (x / 2 ^ ulpExp x) :=
      le_roundHalfEven _ 0 (by simpa using div_nonneg h hu.le)
    have : (0 : ℚ) ≤ (roundHalfEven (x / 2 ^ ulpExp x) : ℚ) := by exact_mod_cast this
    exact mul_nonneg this hu.le

theorem log_eq_of_bounds (q : ℚ) (e : ℤ) (h1 : (2 : ℚ) ^ e ≤ q) (h2 : q < (2 : ℚ) ^ (e + 1)) :
    Int.log 2 q = e := by
  have hq : 0 < q := lt_of_lt_of_le (two_zpow_pos e) h1
  have a : e ≤ Int.log 2 q := (Int.zpow_le_iff_le_log (by norm_num) hq).mp (by simpa using h1)
  have b : Int.log 2 q < e + 1 := (Int.lt_zpow_iff_log_lt (by norm_num) hq).mp (by simpa using h2)
  omega

theorem fl_eq_of_near (q : ℚ) (e m : ℤ) (h1 : (2 : ℚ) ^ e ≤ |q|) (h2 : |q| < (2 : ℚ) ^ (e + 1))
    (he : -1022 ≤ e) (hm : |q / (2 : ℚ) ^ (e - 52) - m| < 1 / 2) :
    fl q = m * (2 : ℚ) ^ (e - 52) := by
  have hq : q ≠ 0 := by
    intro h0
    rw [h0, abs_zero] at h1
    exact absurd h1 (not_le.mpr (two_zpow_pos e))
  have hu : ulpExp q = e - 52 := by
    unfold ulpExp
    rw [log_eq_of_bounds _ e h1 h2]
    exact max_eq_left (by omega)
  unfold fl
  rw [if_neg hq, hu, roundHalfEven_eq_of_near _ m hm]

theorem natCast_le_fl (z : ℕ) (x : ℚ) (hz : z ≤ 2 ^ 53) (h : (z : ℚ) ≤ x) : (z : ℚ) ≤ fl x := by
  rcases Nat.eq_zero_or_pos z with h0 | hpos
  · subst h0
    simpa using fl_nonneg x (by simpa using h)
  have hz1 : (1 : ℚ) ≤ z := by exact_mod_cast hpos
  have hx1 : (1 : ℚ) ≤ x := le_trans hz1 h
  have hx0 : 0 < x := lt_of_lt_of_le one_pos hx1
  have hxne : x ≠ 0 := ne_of_gt hx0
  have habs : |x| = x := abs_of_pos hx0
  have hlog0 : 0 ≤ Int.log 2 x :=
    (Int.zpow_le_iff_le_log (by norm_num) hx0).mp (by simpa using hx1)
  have hlo : ((2 : ℕ) : ℚ) ^ Int.log 2 x ≤ x := Int.zpow_log_le_self (by norm_num) hx0
  have hhi : x < ((2 : ℕ) : ℚ) ^ (Int.log 2 x + 1) := Int.lt_zpow_succ_log_self (by norm_num) x
  simp only [Nat.cast_ofNat] at hlo hhi
  have hu : ulpExp x = Int.log 2 x - 52 := by
    unfold ulpExp
    rw [habs]
    exact max_eq_left (by omega)
  unfold fl
  rw [if_neg hxne, hu]
  set e := Int.log 2 x with he
  have hupos := two_zpow_pos (e - 52)
  rcases le_or_lt e 52 with hle | hgt
  · -- the unit is 2^-(52-e): z is a multiple of it
    obtain ⟨k, hk⟩ : ∃ k : ℕ, 52 - e = (k : ℤ) := ⟨(52 - e).toNat, by omega⟩
    have hu2 : (2 : ℚ) ^ (e - 52) = ((2 : ℚ) ^ k)⁻¹ := by
      have : e - 52 = -(k : ℤ) := by omega
      rw [this, zpow_neg, zpow_natCast]
    have hpk : (0 : ℚ) < (2 : ℚ) ^ k := pow_pos (by norm_num) k
    have hdiv : (((z * 2 ^ k : ℕ) : ℤ) : ℚ) ≤ x / (2 : ℚ) ^ (e - 52) := by
      rw [hu2, div_inv_eq_mul]
      push_cast
      exact mul_le_mul_of_nonneg_right h hpk.le
    have hr := le_roundHalfEven _ _ hdiv
    have hr2 : (((z * 2 ^ k : ℕ) : ℤ) : ℚ) ≤ (roundHalfEven (x / (2 : ℚ) ^ (e - 52)) : ℚ) := by
      exact_mod_cast hr
    calc (z : ℚ) = (((z * 2 ^ k : ℕ) : ℤ) : ℚ) * (2 : ℚ) ^ (e - 52) := by
          rw [hu2]; push_cast; field_simp
      _ ≤ (roundHalfEven (x / (2 : ℚ) ^ (e - 52)) : ℚ) * (2 : ℚ) ^ (e - 52) :=
          mul_le_mul_of_nonneg_right hr2 hupos.le
  · -- x is at least 2^53
    obtain ⟨k, hk⟩ : ∃ k : ℕ, e - 52 = (k : ℤ) := ⟨(e - 52).toNat, by omega⟩
    have hk1 : 1 ≤ k := by omega
    have hsplit : (2 : ℚ) ^ e = (2 : ℚ) ^ (52 : ℕ) * (2 : ℚ) ^ (e - 52) := by
      have : e = (52 : ℕ) + (e - 52) := by omega
      conv_lhs => rw [this]
      rw [zpow_add₀ (by norm_num), zpow_natCast]
    have hc : (((2 ^ 52 : ℕ) : ℤ) : ℚ) = (2 : ℚ) ^ (52 : ℕ) := by norm_num
    have hdiv : (((2 ^ 52 : ℕ) : ℤ) : ℚ) ≤ x / (2 : ℚ) ^ (e - 52) := by
      rw [le_div_iff₀ hupos, hc, ← hsplit]
      exact hlo
    have hr := le_roundHalfEven _ _ hdiv
    have hr2 : (((2 ^ 52 : ℕ) : ℤ) : ℚ) ≤ (roundHalfEven (x / (2 : ℚ) ^ (e - 52)) : ℚ) := by
      exact_mod_cast hr
    have h53 : (z : ℚ) ≤ (2 : ℚ) ^ (53 : ℕ) := by exact_mod_cast hz
    have hpow : (2 : ℚ) ^ (53 : ℕ) ≤ (2 : ℚ) ^ (52 : ℕ) * (2 : ℚ) ^ (e - 52) := by
      rw [hk, zpow_natCast]
      have : (2 : ℚ) ^ (1 : ℕ) ≤ (2 : ℚ) ^ k := pow_le_pow_right₀ (by norm_num) hk1
      have h52 : (0 : ℚ) < (2 : ℚ) ^ (52 : ℕ) := pow_pos (by norm_num) 52
      calc (2 : ℚ) ^ (53 : ℕ) = (2 : ℚ) ^ (52 : ℕ) * (2 : ℚ) ^ (1 : ℕ) := by norm_num
        _ ≤ (2 : ℚ) ^ (52 : ℕ) * (2 : ℚ) ^ k := mul_le_mul_of_nonneg_left this h52.le
    calc (z : ℚ) ≤ (2 : ℚ) ^ (53 : ℕ) := h53
      _ ≤ (2 : ℚ) ^ (52 : ℕ) * (2 : ℚ) ^ (e - 52) := hpow
      _ = (((2 ^ 52 : ℕ) : ℤ) : ℚ) * (2 : ℚ) ^ (e - 52) := by rw [hc]
      _ ≤ (roundHalfEven (x / (2 : ℚ) ^ (e - 52)) : ℚ) * (2 : ℚ) ^ (e - 52) :=
          mul_le_mul_of_nonneg_right hr2 hupos.le

theorem fl_eq_of_near_pos (q : ℚ) (e m : ℤ) (h1 : (2 : ℚ) ^ e ≤ q) (h2 : q < (2 : ℚ) ^ (e + 1))
    (he : -1022 ≤ e) (hlo : (m : ℚ) - 1 / 2 < q / (2 : ℚ) ^ (e - 52))
    (hhi : q / (2 : ℚ) ^ (e - 52) < (m : ℚ) + 1 / 2) : fl q = m * (2 : ℚ) ^ (e - 52) := by
  have hq : 0 < q := lt_of_lt_of_le (two_zpow_pos e) h1
  apply fl_eq_of_near q e m
  · rw [abs_of_pos hq]; exact h1
  · rw [abs_of_pos hq]; exact h2
  · exact he
  · rw [abs_lt]; constructor <;> linarith

theorem fl_one_hundredth : fl (1 / 100) = 5764607523034235 / 2 ^ 59 := by
  rw [fl_eq_of_near_pos (1 / 100) (-7) 5764607523034235 (by norm_num) (by norm_num) (by norm_num)
    (by norm_num) (by norm_num)]
  norm_num

theorem fl_five : fl 5 = 5 := by
  rw [fl_eq_of_near_pos 5 2 5629499534213120 (by norm_num) (by norm_num) (by norm_num)
    (by norm_num) (by norm_num)]
  norm_num

theorem firstPos_five : firstPos 5 (100 - 1 / 2 ^ 46) = 5 := by
  unfold firstPos
  have h5 : fl (((5 : ℤ) : ℚ)) = 5 := by
    rw [show ((5 : ℤ) : ℚ) = 5 by norm_num, fl_five]
  rw [h5, fl_one_hundredth]
  have h2 : fl (5764607523034235 / 2 ^ 59 * 5) = 7205759403792794 / 2 ^ 57 := by
    rw [fl_eq_of_near_pos _ (-5) 7205759403792794 (by norm_num) (by norm_num) (by norm_num)
      (by norm_num) (by norm_num)]
    norm_num
  rw [h2]
  have h3 : fl (7205759403792794 / 2 ^ 57 * (100 - 1 / 2 ^ 46)) = 5 := by
    rw [fl_eq_of_near_pos _ 2 5629499534213120 (by norm_num) (by norm_num) (by norm_num)
      (by norm_num) (by norm_num)]
    norm_num
  rw [h3]
  unfold toLong
  norm_num

theorem roundHalfEven_intCast (k : ℤ) : roundHalfEven (k : ℚ) = k :=
  roundHalfEven_eq_of_near _ k (by simp)

theorem roundHalfEven_le (x : ℚ) (k : ℤ) (h : x ≤ (k : ℚ)) : roundHalfEven x ≤ k := by
  rcases eq_or_lt_of_le h with heq | hlt
  · rw [heq, roundHalfEven_intCast]
  · have hf : ⌊x⌋ < k := Int.floor_lt.mpr hlt
    rcases roundHalfEven_cases x with h1 | h1 <;> omega

theorem roundHalfEven_le_add_half (x : ℚ) : (roundHalfEven x : ℚ) ≤ x + 1 / 2 := by
  have hf1 : (⌊x⌋ : ℚ) ≤ x := Int.floor_le x
  unfold roundHalfEven
  simp only
  split_ifs with a b c
  · linarith
  · push_cast; linarith [Int.lt_floor_add_one x]
  · linarith
  · have : x - ⌊x⌋ = 1 / 2 := le_antisymm (not_lt.mp b) (not_lt.mp a)
    push_cast; linarith

theorem two_zpow_le (a b : ℤ) (h : a ≤ b) : (2 : ℚ) ^ a ≤ (2 : ℚ) ^ b :=
  zpow_le_zpow_right₀ (by norm_num) h

theorem two_zpow_sub (a b : ℤ) : (2 : ℚ) ^ (a - b) = (2 : ℚ) ^ a / (2 : ℚ) ^ b :=
  zpow_sub₀ (by norm_num) a b

theorem two_zpow_add (a b : ℤ) : (2 : ℚ) ^ (a + b) = (2 : ℚ) ^ a * (2 : ℚ) ^ b :=
  zpow_add₀ (by norm_num) a b

/-- Bounds on the binade of a positive rational. -/
theorem log_bounds (x : ℚ) (hx : 0 < x) :
    (2 : ℚ) ^ Int.log 2 x ≤ x ∧ x < (2 : ℚ) ^ (Int.log 2 x + 1) := by
  have hlo : ((2 : ℕ) : ℚ) ^ Int.log 2 x ≤ x := Int.zpow_log_le_self (by norm_num) hx
  have hhi : x < ((2 : ℕ) : ℚ) ^ (Int.log 2 x + 1) := Int.lt_zpow_succ_log_self (by norm_num) x
  simp only [Nat.cast_ofNat] at hlo hhi
  exact ⟨hlo, hhi⟩

theorem ulpExp_ge (x : ℚ) : -1074 ≤ ulpExp x := le_max_right _ _

theorem ulpExp_ge_log (x : ℚ) : Int.log 2 |x| - 52 ≤ ulpExp x := le_max_left _ _

/-- The quotient of `x` by its unit in the last place is below `2^53`. -/
theorem div_ulp_lt (x : ℚ) (hx : 0 < x) : x / (2 : ℚ) ^ ulpExp x < (2 : ℚ) ^ (53 : ℤ) := by
  have hb := (log_bounds x hx).2
  have hu := two_zpow_pos (ulpExp x)
  rw [div_lt_iff₀ hu, ← two_zpow_add]
  have h1 : Int.log 2 x + 1 ≤ 53 + ulpExp x := by
    have := ulpExp_ge_log x
    rw [abs_of_pos hx] at this
    omega
  exact lt_of_lt_of_le hb (two_zpow_le _ _ h1)

theorem natCast_two_pow (n : ℕ) : (((2 ^ n : ℕ) : ℤ) : ℚ) = (2 : ℚ) ^ (n : ℤ) := by
  rw [zpow_natCast]; push_cast; rfl

/-- A positive rational with a significand below `2^53` is a double. -/
theorem fl_of_repr_pos (m E : ℤ) (hm0 : 0 < m) (hm : m < 2 ^ 53) (hE : -1074 ≤ E) :
    fl ((m : ℚ) * (2 : ℚ) ^ E) = (m : ℚ) * (2 : ℚ) ^ E := by
  have hmq : (0 : ℚ) < m := by exact_mod_cast hm0
  have hq : 0 < (m : ℚ) * (2 : ℚ) ^ E := mul_pos hmq (two_zpow_pos E)
  have hlt : (m : ℚ) * (2 : ℚ) ^ E < (2 : ℚ) ^ (53 + E) := by
    rw [two_zpow_add]
    have : (m : ℚ) < (2 : ℚ) ^ (53 : ℤ) := by
      calc (m : ℚ) < ((2 ^ 53 : ℤ) : ℚ) := by exact_mod_cast hm
        _ = (2 : ℚ) ^ (53 : ℤ) := by norm_num
    exact mul_lt_mul_of_pos_right this (two_zpow_pos E)
  have hlog : Int.log 2 ((m : ℚ) * (2 : ℚ) ^ E) < 53 + E :=
    (Int.lt_zpow_iff_log_lt (by norm_num) hq).mp (by simpa using hlt)
  have hU : ulpExp ((m : ℚ) * (2 : ℚ) ^ E) ≤ E := by
    unfold ulpExp
    rw [abs_of_pos hq]
    exact max_le (by omega) hE
  obtain ⟨n, hn⟩ : ∃ n : ℕ, E - ulpExp ((m : ℚ) * (2 : ℚ) ^ E) = (n : ℤ) :=
    ⟨(E - ulpExp ((m : ℚ) * (2 : ℚ) ^ E)).toNat, by omega⟩
  unfold fl
  rw [if_neg (ne_of_gt hq)]
  set U := ulpExp ((m : ℚ) * (2 : ℚ) ^ E) with hUdef
  have hsplit : (2 : ℚ) ^ E = (2 : ℚ) ^ (n : ℤ) * (2 : ℚ) ^ U := by
    rw [← two_zpow_add]
    congr 1
    omega
  have hdiv : (m : ℚ) * (2 : ℚ) ^ E / (2 : ℚ) ^ U = ((m * 2 ^ n : ℤ) : ℚ) := by
    rw [hsplit, ← mul_assoc, mul_div_assoc, div_self (ne_of_gt (two_zpow_pos U)), mul_one,
      zpow_natCast]
    push_cast
    rfl
  rw [hdiv, roundHalfEven_intCast, hsplit]
  push_cast
  rw [zpow_natCast]
  ring

/-- Every rational `m * 2^E` with `0 <= m <= 2^53` and `E >= -1074` is a double. -/
theorem fl_of_repr (m E : ℤ) (hm0 : 0 ≤ m) (hm : m ≤ 2 ^ 53) (hE : -1074 ≤ E) :
    fl ((m : ℚ) * (2 : ℚ) ^ E) = (m : ℚ) * (2 : ℚ) ^ E := by
  rcases eq_or_lt_of_le hm0 with h0 | hpos
  · rw [← h0]; simp [fl_zero]
  rcases eq_or_lt_of_le hm with htop | hlt
  · have h := fl_of_repr_pos (2 ^ 52) (E + 1) (by norm_num) (by norm_num) (by omega)
    have hre : (m : ℚ) * (2 : ℚ) ^ E = ((2 ^ 52 : ℤ) : ℚ) * (2 : ℚ) ^ (E + 1) := by
      rw [htop, two_zpow_add]
      norm_num
      ring
    rw [hre]
    exact h
  · exact fl_of_repr_pos m E hpos hlt hE

/-- The double nearest to a non-negative rational, as significand and exponent. -/
theorem exists_repr (x : ℚ) (hx : 0 ≤ x) :
    ∃ m E : ℤ, 0 ≤ m ∧ m ≤ 2 ^ 53 ∧ -1074 ≤ E ∧ fl x = (m : ℚ) * (2 : ℚ) ^ E := by
  rcases eq_or_lt_of_le hx with h0 | hpos
  · exact ⟨0, 0, le_refl 0, by norm_num, by norm_num, by rw [← h0]; simp [fl_zero]⟩
  · refine ⟨roundHalfEven (x / (2 : ℚ) ^ ulpExp x), ulpExp x, ?_, ?_, ulpExp_ge x, ?_⟩
    · exact le_roundHalfEven _ 0 (by simpa using (div_nonneg hx (two_zpow_pos _).le))
    · apply roundHalfEven_le
      have := div_ulp_lt x hpos
      have h2 : ((2 ^ 53 : ℤ) : ℚ) = (2 : ℚ) ^ (53 : ℤ) := by norm_num
      rw [h2]
      exact this.le
    · unfold fl
      rw [if_neg (ne_of_gt hpos)]

theorem fl_idem (x : ℚ) (hx : 0 ≤ x) : fl (fl x) = fl x := by
  obtain ⟨m, E, hm0, hm, hE, h⟩ := exists_repr x hx
  rw [h]
  exact fl_of_repr m E hm0 hm hE

/-- Rounding never goes below a double that the argument is at least. -/
theorem le_fl_of_repr (m E : ℤ) (hm0 : 0 ≤ m) (hm : m ≤ 2 ^ 53) (hE : -1074 ≤ E) (x : ℚ)
    (h : (m : ℚ) * (2 : ℚ) ^ E ≤ x) : (m : ℚ) * (2 : ℚ) ^ E ≤ fl x := by
  have hmq : (0 : ℚ) ≤ m := by exact_mod_cast hm0
  have hz0 : 0 ≤ (m : ℚ) * (2 : ℚ) ^ E := mul_nonneg hmq (two_zpow_pos E).le
  rcases eq_or_lt_of_le (le_trans hz0 h) with h0 | hpos
  · rw [← h0, fl_zero]
    rw [← h0] at h
    exact h
  have hb := log_bounds x hpos
  have hUdef : ulpExp x = max (Int.log 2 x - 52) (-1074) := by
    unfold ulpExp
    rw [abs_of_pos hpos]
  have hu := two_zpow_pos (ulpExp x)
  unfold fl
  rw [if_neg (ne_of_gt hpos)]
  rcases le_or_lt (ulpExp x) E with hle | hgt
  · obtain ⟨n, hn⟩ : ∃ n : ℕ, E - ulpExp x = (n : ℤ) := ⟨(E - ulpExp x).toNat, by omega⟩
    have hsplit : (2 : ℚ) ^ E = (2 : ℚ) ^ (n : ℤ) * (2 : ℚ) ^ ulpExp x := by
      rw [← two_zpow_add]
      congr 1
      omega
    have hz : (m : ℚ) * (2 : ℚ) ^ E = ((m * 2 ^ n : ℤ) : ℚ) * (2 : ℚ) ^ ulpExp x := by
      rw [hsplit, zpow_natCast]
      push_cast
      ring
    have hdiv : ((m * 2 ^ n : ℤ) : ℚ) ≤ x / (2 : ℚ) ^ ulpExp x := by
      rw [le_div_iff₀ hu, ← hz]
      exact h
    have hr : ((m * 2 ^ n : ℤ) : ℚ) ≤ (roundHalfEven (x / (2 : ℚ) ^ ulpExp x) : ℚ) := by
      exact_mod_cast le_roundHalfEven _ _ hdiv
    rw [hz]
    exact mul_le_mul_of_nonneg_right hr hu.le
  · have hU : ulpExp x = Int.log 2 x - 52 := by
      rw [hUdef] at hgt ⊢
      rcases le_total (Int.log 2 x - 52) (-1074) with hc | hc
      · rw [max_eq_right hc] at hgt
        omega
      · exact max_eq_left hc
    have hz : (m : ℚ) * (2 : ℚ) ^ E ≤ (2 : ℚ) ^ Int.log 2 x := by
      calc (m : ℚ) * (2 : ℚ) ^ E ≤ (2 : ℚ) ^ (53 : ℤ) * (2 : ℚ) ^ E := by
            apply mul_le_mul_of_nonneg_right _ (two_zpow_pos E).le
            calc (m : ℚ) ≤ ((2 ^ 53 : ℤ) : ℚ) := by exact_mod_cast hm
              _ = (2 : ℚ) ^ (53 : ℤ) := by norm_num
        _ = (2 : ℚ) ^ (53 + E) := (two_zpow_add 53 E).symm
        _ ≤ (2 : ℚ) ^ Int.log 2 x := two_zpow_le _ _ (by omega)
    have hdiv : ((2 ^ 52 : ℤ) : ℚ) ≤ x / (2 : ℚ) ^ ulpExp x := by
      rw [le_div_iff₀ hu, hU]
      calc ((2 ^ 52 : ℤ) : ℚ) * (2 : ℚ) ^ (Int.log 2 x - 52)
          = (2 : ℚ) ^ (52 : ℤ) * (2 : ℚ) ^ (Int.log 2 x - 52) := by norm_num
        _ = (2 : ℚ) ^ (52 + (Int.log 2 x - 52)) := (two_zpow_add _ _).symm
        _ = (2 : ℚ) ^ Int.log 2 x := by congr 1; omega
        _ ≤ x := hb.1
    have hr : ((2 ^ 52 : ℤ) : ℚ) ≤ (roundHalfEven (x / (2 : ℚ) ^ ulpExp x) : ℚ) := by
      exact_mod_cast le_roundHalfEven _ _ hdiv
    calc (m : ℚ) * (2 : ℚ) ^ E ≤ (2 : ℚ) ^ Int.log 2 x := hz
      _ = (2 : ℚ) ^ (52 + (Int.log 2 x - 52)) := by congr 1; omega
      _ = (2 : ℚ) ^ (52 : ℤ) * (2 : ℚ) ^ (Int.log 2 x - 52) := two_zpow_add _ _
      _ = ((2 ^ 52 : ℤ) : ℚ) * (2 : ℚ) ^ ulpExp x := by rw [hU]; norm_num
      _ ≤ (roundHalfEven (x / (2 : ℚ) ^ ulpExp x) : ℚ) * (2 : ℚ) ^ ulpExp x :=
          mul_le_mul_of_nonneg_right hr hu.le

/-- Rounding never goes above a double that the argument is at most. -/
theorem fl_le_of_repr (m E : ℤ) (hm : m ≤ 2 ^ 53) (hE : -1074 ≤ E) (x : ℚ)
    (hx : 0 ≤ x) (h : x ≤ (m : ℚ) * (2 : ℚ) ^ E) : fl x ≤ (m : ℚ) * (2 : ℚ) ^ E := by
  rcases eq_or_lt_of_le hx with h0 | hpos
  · rw [← h0, fl_zero]
    rw [← h0] at h
    exact h
  have hb := log_bounds x hpos
  have hUdef : ulpExp x = max (Int.log 2 x - 52) (-1074) := by
    unfold ulpExp
    rw [abs_of_pos hpos]
  have hu := two_zpow_pos (ulpExp x)
  rcases le_or_lt (ulpExp x) E with hle | hgt
  · unfold fl
    rw [if_neg (ne_of_gt hpos)]
    obtain ⟨n, hn⟩ : ∃ n : ℕ, E - ulpExp x = (n : ℤ) := ⟨(E - ulpExp x).toNat, by omega⟩
    have hsplit : (2 : ℚ) ^ E = (2 : ℚ) ^ (n : ℤ) * (2 : ℚ) ^ ulpExp x := by
      rw [← two_zpow_add]
      congr 1
      omega
    have hz : (m : ℚ) * (2 : ℚ) ^ E = ((m * 2 ^ n : ℤ) : ℚ) * (2 : ℚ) ^ ulpExp x := by
      rw [hsplit, zpow_natCast]
      push_cast
      ring
    have hdiv : x / (2 : ℚ) ^ ulpExp x ≤ ((m * 2 ^ n : ℤ) : ℚ) := by
      rw [div_le_iff₀ hu, ← hz]
      exact h
    have hr : (roundHalfEven (x / (2 : ℚ) ^ ulpExp x) : ℚ) ≤ ((m * 2 ^ n : ℤ) : ℚ) := by
      exact_mod_cast roundHalfEven_le _ _ hdiv
    rw [hz]
    exact mul_le_mul_of_nonneg_right hr hu.le
  · have hU : ulpExp x = Int.log 2 x - 52 := by
      rw [hUdef] at hgt ⊢
      rcases le_total (Int.log 2 x - 52) (-1074) with hc | hc
      · rw [max_eq_right hc] at hgt
        omega
      · exact max_eq_left hc
    have hz : (m : ℚ) * (2 : ℚ) ^ E ≤ (2 : ℚ) ^ Int.log 2 x := by
      calc (m : ℚ) * (2 : ℚ) ^ E ≤ (2 : ℚ) ^ (53 : ℤ) * (2 : ℚ) ^ E := by
            apply mul_le_mul_of_nonneg_right _ (two_zpow_pos E).le
            calc (m : ℚ) ≤ ((2 ^ 53 : ℤ) : ℚ) := by exact_mod_cast hm
              _ = (2 : ℚ) ^ (53 : ℤ) := by norm_num
        _ = (2 : ℚ) ^ (53 + E) := (two_zpow_add 53 E).symm
        _ ≤ (2 : ℚ) ^ Int.log 2 x := two_zpow_le _ _ (by omega)
    -- then `x` is the power of two itself
    have hx2 : x = (2 : ℚ) ^ Int.log 2 x := le_antisymm (le_trans h hz) hb.1
    have hrep : x = ((2 ^ 52 : ℤ) : ℚ) * (2 : ℚ) ^ (Int.log 2 x - 52) := by
      calc x = (2 : ℚ) ^ Int.log 2 x := hx2
        _ = (2 : ℚ) ^ (52 + (Int.log 2 x - 52)) := by congr 1; omega
        _ = (2 : ℚ) ^ (52 : ℤ) * (2 : ℚ) ^ (Int.log 2 x - 52) := two_zpow_add _ _
        _ = ((2 ^ 52 : ℤ) : ℚ) * (2 : ℚ) ^ (Int.log 2 x - 52) := by norm_num
    have hfix : fl x = x := by
      have := fl_of_repr (2 ^ 52) (Int.log 2 x - 52) (by norm_num) (by norm_num)
        (by have := ulpExp_ge x; omega)
      rw [← hrep] at this
      exact this
    rw [hfix]
    exact h

/-- The integer part of a non-negative double is a double. -/
theorem fl_floor_repr (m E : ℤ) (hm0 : 0 ≤ m) (hm : m ≤ 2 ^ 53) :
    fl ((⌊(m : ℚ) * (2 : ℚ) ^ E⌋ : ℤ) : ℚ) = ((⌊(m : ℚ) * (2 : ℚ) ^ E⌋ : ℤ) : ℚ) := by
  have hmq : (0 : ℚ) ≤ m := by exact_mod_cast hm0
  rcases le_or_lt 0 E with hE | hE
  · obtain ⟨n, hn⟩ : ∃ n : ℕ, E = (n : ℤ) := ⟨E.toNat, by omega⟩
    have hint : (m : ℚ) * (2 : ℚ) ^ E = ((m * 2 ^ n : ℤ) : ℚ) := by
      rw [hn, zpow_natCast]
      push_cast
      rfl
    rw [hint, Int.floor_intCast, ← hint]
    exact fl_of_repr m E hm0 hm (by omega)
  · have h0 : 0 ≤ ⌊(m : ℚ) * (2 : ℚ) ^ E⌋ :=
      Int.floor_nonneg.mpr (mul_nonneg hmq (two_zpow_pos E).le)
    have h1 : (2 : ℚ) ^ E ≤ 1 := by
      have := two_zpow_le E 0 (by omega)
      simpa using this
    have h2 : (m : ℚ) * (2 : ℚ) ^ E ≤ ((2 ^ 53 : ℤ) : ℚ) := by
      calc (m : ℚ) * (2 : ℚ) ^ E ≤ (m : ℚ) * 1 := mul_le_mul_of_nonneg_left h1 hmq
        _ = m := mul_one _
        _ ≤ ((2 ^ 53 : ℤ) : ℚ) := by exact_mod_cast hm
    have h3 : ((⌊(m : ℚ) * (2 : ℚ) ^ E⌋ : ℤ) : ℚ) ≤ ((2 ^ 53 : ℤ) : ℚ) :=
      le_trans (Int.floor_le _) h2
    have h4 : ⌊(m : ℚ) * (2 : ℚ) ^ E⌋ ≤ 2 ^ 53 := by exact_mod_cast h3
    have := fl_of_repr ⌊(m : ℚ) * (2 : ℚ) ^ E⌋ 0 h0 h4 (by norm_num)
    simpa using this

/-- In the normal range rounding adds at most the fraction `2^-53`. -/
theorem fl_le_mul (x : ℚ) (hx : (2 : ℚ) ^ (-1022 : ℤ) ≤ x) : fl x ≤ x * (1 + 1 / 2 ^ 53) := by
  have hpos : 0 < x := lt_of_lt_of_le (two_zpow_pos _) hx
  have hb := log_bounds x hpos
  have hlog : -1022 ≤ Int.log 2 x :=
    (Int.zpow_le_iff_le_log (by norm_num) hpos).mp (by simpa using hx)
  have hU : ulpExp x = Int.log 2 x - 52 := by
    unfold ulpExp
    rw [abs_of_pos hpos]
    exact max_eq_left (by omega)
  have hu := two_zpow_pos (ulpExp x)
  unfold fl
  rw [if_neg (ne_of_gt hpos)]
  have h1 := roundHalfEven_le_add_half (x / (2 : ℚ) ^ ulpExp x)
  have h2 : (roundHalfEven (x / (2 : ℚ) ^ ulpExp x) : ℚ) * (2 : ℚ) ^ ulpExp x
      ≤ (x / (2 : ℚ) ^ ulpExp x + 1 / 2) * (2 : ℚ) ^ ulpExp x :=
    mul_le_mul_of_nonneg_right h1 hu.le
  have h3 : (x / (2 : ℚ) ^ ulpExp x + 1 / 2) * (2 : ℚ) ^ ulpExp x
      = x + (2 : ℚ) ^ ulpExp x / 2 := by
    rw [add_mul, div_mul_cancel₀ x (ne_of_gt hu)]
    ring
  have h4 : (2 : ℚ) ^ ulpExp x ≤ x / 2 ^ 52 := by
    rw [hU, two_zpow_sub, le_div_iff₀ (by positivity)]
    have : (2 : ℚ) ^ Int.log 2 x / (2 : ℚ) ^ (52 : ℤ) * 2 ^ 52 = (2 : ℚ) ^ Int.log 2 x := by
      norm_num
    rw [this]
    exact hb.1
  rw [h3] at h2
  have h5 : x + (2 : ℚ) ^ ulpExp x / 2 ≤ x * (1 + 1 / 2 ^ 53) := by
    have : (2 : ℚ) ^ ulpExp x / 2 ≤ x / 2 ^ 52 / 2 := by linarith
    have h6 : x / 2 ^ 52 / 2 = x * (1 / 2 ^ 53) := by ring
    linarith
  exact le_trans h2 h5

/-- A double below `100` is at most the predecessor `100 - 2^-46` of `100`. -/
theorem double_lt_hundred (p : ℚ) (hd : fl p = p) (h : p < 100) : p ≤ 100 - 1 / 2 ^ 46 := by
  rcases le_or_lt p 64 with hle | hgt
  · have : (64 : ℚ) ≤ 100 - 1 / 2 ^ 46 := by norm_num
    linarith
  have hpos : 0 < p := by linarith
  have hlog : Int.log 2 p = 6 := log_eq_of_bounds p 6 (by norm_num; linarith) (by norm_num; linarith)
  have hU : ulpExp p = -46 := by
    unfold ulpExp
    rw [abs_of_pos hpos, hlog]
    norm_num
  unfold fl at hd
  rw [if_neg (ne_of_gt hpos), hU] at hd
  set k := roundHalfEven (p / (2 : ℚ) ^ (-46 : ℤ)) with hk
  have hp : p = (k : ℚ) / 2 ^ 46 := by
    rw [← hd]
    norm_num
    ring
  have hk1 : (k : ℚ) < ((100 * 2 ^ 46 : ℤ) : ℚ) := by
    rw [hp] at h
    rw [div_lt_iff₀ (by positivity)] at h
    push_cast
    linarith
  have hk2 : k < 100 * 2 ^ 46 := by exact_mod_cast hk1
  have hk3 : (k : ℚ) ≤ ((100 * 2 ^ 46 - 1 : ℤ) : ℚ) := by
    have : k ≤ 100 * 2 ^ 46 - 1 := by omega
    exact_mod_cast this
  rw [hp, div_le_iff₀ (by positivity)]
  have : ((100 : ℚ) - 1 / 2 ^ 46) * 2 ^ 46 = ((100 * 2 ^ 46 - 1 : ℤ) : ℚ) := by norm_num
  rw [this]
  exact hk3

theorem toLong_intCast (z : ℤ) : toLong (z : ℚ) = z := by
  unfold toLong
  split_ifs with h
  · exact Int.floor_intCast z
  · rw [← Int.cast_neg, Int.floor_intCast]
    omega

theorem intCast_le_toLong (z : ℤ) (x : ℚ) (hz : 0 ≤ z) (h : (z : ℚ) ≤ x) : z ≤ toLong x := by
  have hzq : (0 : ℚ) ≤ z := by exact_mod_cast hz
  unfold toLong
  rw [if_pos (le_trans hzq h)]
  exact Int.le_floor.mpr h

theorem MIN_le_MAX (x y : ℚ) : MIN x y ≤ MAX x y := by
  unfold MIN MAX
  split_ifs <;> linarith

/-- The region start is not negative, is itself a double, and is at most the
length converted to double. -/
theorem firstPos_facts (sz : ℕ) (percent : ℚ) (hp0 : 0 ≤ percent) (hp : percent < 100)
    (hd : fl percent = percent) :
    0 ≤ firstPos (sz : ℤ) percent ∧
    fl ((firstPos (sz : ℤ) percent : ℤ) : ℚ) = ((firstPos (sz : ℤ) percent : ℤ) : ℚ) ∧
    ((firstPos (sz : ℤ) percent : ℤ) : ℚ) ≤ fl (((sz : ℤ) : ℤ) : ℚ) := by
  have hszq : (((sz : ℤ) : ℤ) : ℚ) = (sz : ℚ) := by push_cast; rfl
  have hsz0 : (0 : ℚ) ≤ (sz : ℚ) := Nat.cast_nonneg sz
  have hY0 : (0 : ℚ) ≤ fl (sz : ℚ) := fl_nonneg _ hsz0
  have hc0 : (0 : ℚ) ≤ fl (1 / 100) := fl_nonneg _ (by norm_num)
  have hx1 := fl_nonneg _ (mul_nonneg hc0 hY0)
  have hP0 : 0 ≤ fl (fl (1 / 100) * fl (sz : ℚ)) * percent := mul_nonneg hx1 hp0
  have hD0 := fl_nonneg _ hP0
  have hfirst : firstPos (sz : ℤ) percent
      = ⌊fl (fl (fl (1 / 100) * fl (sz : ℚ)) * percent)⌋ := by
    unfold firstPos toLong
    rw [hszq, if_pos hD0]
  obtain ⟨m, E, hm0, hm, hE, hrep⟩ := exists_repr _ hP0
  refine ⟨?_, ?_, ?_⟩
  · rw [hfirst]
    exact Int.floor_nonneg.mpr hD0
  · rw [hfirst, hrep]
    exact fl_floor_repr m E hm0 hm
  · rw [hszq, hfirst]
    refine le_trans (Int.floor_le _) ?_
    rcases Nat.eq_zero_or_pos sz with h0 | hpos
    · subst h0
      simp [fl_zero]
    · have hY1 : (1 : ℚ) ≤ fl (sz : ℚ) := by
        have := natCast_le_fl 1 (sz : ℚ) (by norm_num) (by exact_mod_cast hpos)
        simpa using this
      obtain ⟨mY, EY, hmY0, hmY, hEY, hrepY⟩ := exists_repr (sz : ℚ) hsz0
      rw [hrepY]
      apply fl_le_of_repr mY EY hmY hEY _ (by rw [← hrepY]; exact hP0)
      rw [← hrepY]
      have hx1lo : (2 : ℚ) ^ (-1022 : ℤ) ≤ fl (1 / 100) * fl (sz : ℚ) := by
        rw [fl_one_hundredth]
        have h1 : (2 : ℚ) ^ (-1022 : ℤ) ≤ (2 : ℚ) ^ (-7 : ℤ) := two_zpow_le _ _ (by norm_num)
        have h2 : (2 : ℚ) ^ (-7 : ℤ) ≤ 5764607523034235 / 2 ^ 59 := by norm_num
        have h3 : (5764607523034235 / 2 ^ 59 : ℚ) * 1 ≤ 5764607523034235 / 2 ^ 59 * fl (sz : ℚ) :=
          mul_le_mul_of_nonneg_left hY1 (by norm_num)
        linarith
      have hmul := fl_le_mul _ hx1lo
      have hp2 := double_lt_hundred percent hd hp
      calc fl (fl (1 / 100) * fl (sz : ℚ)) * percent
          ≤ fl (1 / 100) * fl (sz : ℚ) * (1 + 1 / 2 ^ 53) * (100 - 1 / 2 ^ 46) :=
            mul_le_mul hmul hp2 hp0 (le_trans hx1 hmul)
        _ = fl (sz : ℚ) * (5764607523034235 / 2 ^ 59 * (1 + 1 / 2 ^ 53) * (100 - 1 / 2 ^ 46)) := by
            rw [fl_one_hundredth]; ring
        _ ≤ fl (sz : ℚ) * 1 := mul_le_mul_of_nonneg_left (by norm_num) hY0
        _ = fl (sz : ℚ) := mul_one _

/-- Every pass of the loop picks an offset that is at least the region start. -/
theorem firstPos_le_pos (RAND_MAX : ℕ) (sz : ℕ) (percent : ℚ) (g : Rng) (hp0 : 0 ≤ percent)
    (hp : percent < 100) (hd : fl percent = percent) :
    firstPos (sz : ℤ) percent
      ≤ toLong (random RAND_MAX (fl ((firstPos (sz : ℤ) percent : ℤ) : ℚ))
          (fl (((sz : ℤ) : ℤ) : ℚ)) g).1 := by
  obtain ⟨h0, hfix, hle⟩ := firstPos_facts sz percent hp0 hp hd
  rw [hfix]
  set first := firstPos (sz : ℤ) percent with hfirst
  have hfq : (0 : ℚ) ≤ (first : ℚ) := by exact_mod_cast h0
  unfold random
  split_ifs with hf
  · rw [toLong_intCast]
  · simp only
    apply intCast_le_toLong first _ h0
    have hmin : MIN (first : ℚ) (fl (((sz : ℤ) : ℤ) : ℚ)) = first := by
      unfold MIN
      rw [if_neg (not_lt.mpr hle)]
    have hmax : MAX (first : ℚ) (fl (((sz : ℤ) : ℤ) : ℚ)) - (first : ℚ) ≥ 0 := by
      have := MIN_le_MAX (first : ℚ) (fl (((sz : ℤ) : ℤ) : ℚ))
      rw [hmin] at this
      linarith
    rw [hmin]
    have hd1 : (0 : ℚ) ≤ fl (MAX (first : ℚ) (fl (((sz : ℤ) : ℤ) : ℚ)) - first) :=
      fl_nonneg _ hmax
    have hr : (0 : ℚ) ≤ fl ((rand g).1 : ℚ) := fl_nonneg _ (Nat.cast_nonneg _)
    have hprod := fl_nonneg _ (mul_nonneg hd1 hr)
    have hden : (0 : ℚ) ≤ fl (fl (RAND_MAX : ℚ) + 1) :=
      fl_nonneg _ (add_nonneg (fl_nonneg _ (Nat.cast_nonneg _)) zero_le_one)
    have hq := fl_nonneg _ (div_nonneg hprod hden)
    obtain ⟨m, E, hm0, hm, hE, hrep⟩ := exists_repr (first : ℚ) hfq
    rw [hfix] at hrep
    have := le_fl_of_repr m E hm0 hm hE
      ((first : ℚ) + fl (fl (fl (MAX (first : ℚ) (fl (((sz : ℤ) : ℤ) : ℚ)) - first)
        * fl ((rand g).1 : ℚ)) / fl (fl (RAND_MAX : ℚ) + 1)))
      (by rw [← hrep]; linarith)
    rw [← hrep] at this
    exact this

theorem fl_natCast (n : ℕ) (h : n ≤ 2 ^ 53) : fl (n : ℚ) = n := by
  have := fl_of_repr (n : ℤ) 0 (by omega) (by exact_mod_cast h) (by norm_num)
  simpa using this

theorem roundHalfEven_neg (y : ℚ) : roundHalfEven (-y) = -roundHalfEven y := by
  by_cases hy : (⌊y⌋ : ℚ) = y
  · rw [← hy, ← Int.cast_neg, roundHalfEven_intCast, roundHalfEven_intCast]
  · have hfl : (⌊y⌋ : ℚ) < y := lt_of_le_of_ne (Int.floor_le y) hy
    have hfu : y < ⌊y⌋ + 1 := Int.lt_floor_add_one y
    have hneg : ⌊-y⌋ = -⌊y⌋ - 1 := by
      rw [Int.floor_eq_iff]
      push_cast
      constructor <;> linarith
    unfold roundHalfEven
    simp only [hneg]
    push_cast
    split_ifs <;> first | omega | (exfalso; linarith)

theorem fl_neg (x : ℚ) : fl (-x) = -fl x := by
  unfold fl
  by_cases h0 : x = 0
  · simp [h0]
  · have hn : -x ≠ 0 := neg_ne_zero.mpr h0
    rw [if_neg h0, if_neg hn]
    have hu : ulpExp (-x) = ulpExp x := by
      unfold ulpExp
      rw [abs_neg]
    rw [hu, neg_div, roundHalfEven_neg]
    push_cast
    ring

/-! ## The buffer and one pass of the loop -/

theorem inBounds_write (m : Memory) (pos q : ℤ) (v : ℕ) :
    (m.write pos v).inBounds q ↔ m.inBounds q := by
  unfold Memory.write Memory.inBounds
  split_ifs <;> simp

theorem write_buf_length (m : Memory) (pos : ℤ) (v : ℕ) :
    (m.write pos v).buf.length = m.buf.length := by
  unfold Memory.write
  split_ifs <;> simp

theorem read_write_same (m : Memory) (pos : ℤ) (v : ℕ) : (m.write pos v).read pos = v := by
  unfold Memory.read
  by_cases h : m.inBounds pos
  · rw [if_pos ((inBounds_write m pos pos v).mpr h)]
    unfold Memory.write
    rw [if_pos h]
    have hlt : pos.toNat < m.buf.length := by
      unfold Memory.inBounds at h
      omega
    simp [List.getD_eq_getElem?_getD, List.getElem?_set_self, hlt]
  · rw [if_neg (fun hc => h ((inBounds_write m pos pos v).mp hc))]
    unfold Memory.write
    rw [if_neg h]
    simp

theorem read_write_ne (m : Memory) (pos q : ℤ) (v : ℕ) (hq : q ≠ pos) :
    (m.write pos v).read q = m.read q := by
  unfold Memory.read
  by_cases h : m.inBounds q
  · rw [if_pos ((inBounds_write m pos q v).mpr h), if_pos h]
    unfold Memory.write
    split_ifs with hp
    · have hne : pos.toNat ≠ q.toNat := by
        unfold Memory.inBounds at h hp
        omega
      simp [List.getD_eq_getElem?_getD, List.getElem?_set_ne hne]
    · rfl
  · rw [if_neg (fun hc => h ((inBounds_write m pos q v).mp hc)), if_neg h]
    unfold Memory.write
    split_ifs with hp
    · rfl
    · simp [Function.update_noteq hq]

theorem shiftLeft_one_lt (k : ℕ) (hk : k < 8) : 1 <<< k < 2 ^ 8 := by
  rw [Nat.one_shiftLeft]
  exact Nat.pow_lt_pow_right (by norm_num) hk

theorem applyAlgorithm_xor (old k : ℕ) (hk : k < 8) (hold : old < 256) :
    applyAlgorithm .ALGORITHM_XOR old k = old ^^^ (1 <<< k) := by
  unfold applyAlgorithm
  exact Nat.mod_eq_of_lt (@Nat.xor_lt_two_pow _ _ 8 hold (shiftLeft_one_lt k hk))

theorem applyAlgorithm_or (old k : ℕ) (hk : k < 8) (hold : old < 256) :
    applyAlgorithm .ALGORITHM_OR old k = old ||| (1 <<< k) := by
  unfold applyAlgorithm
  exact Nat.mod_eq_of_lt (@Nat.or_lt_two_pow _ _ 8 hold (shiftLeft_one_lt k hk))

theorem or_bit_already_set (old k : ℕ) (h : old.testBit k = true) : old ||| (1 <<< k) = old := by
  apply Nat.eq_of_testBit_eq
  intro i
  rw [Nat.testBit_or, Nat.one_shiftLeft, Nat.testBit_two_pow]
  by_cases hik : k = i
  · subst hik; simp [h]
  · simp [hik]

/-- C7: one pass of the loop body at offset `pos` with bit index `k < 8` on a
byte `old < 256` stores and reports `old XOR (1 << k)` under XOR and
`old OR (1 << k)` under OR, prints the record `(pos, k, old, new)`, and
leaves every other byte and the length of the buffer as they were; a second
XOR pass at the same offset and bit restores `old`, and an OR pass on a bit
that is already set leaves the byte unchanged. -/
theorem C7_mutation_step (m : Memory) (pos : ℤ) (k : ℕ) (hk : k < 8) (hold : m.read pos < 256) :
    (mutate .ALGORITHM_XOR m pos k).2 = ⟨pos, k, m.read pos, m.read pos ^^^ (1 <<< k)⟩ ∧
    (mutate .ALGORITHM_XOR m pos k).1.read pos = m.read pos ^^^ (1 <<< k) ∧
    (mutate .ALGORITHM_OR m pos k).2 = ⟨pos, k, m.read pos, m.read pos ||| (1 <<< k)⟩ ∧
    (mutate .ALGORITHM_OR m pos k).1.read pos = m.read pos ||| (1 <<< k) ∧
    (∀ (algorithm : ALGORITHMS) (q : ℤ), q ≠ pos →
      (mutate algorithm m pos k).1.read q = m.read q) ∧
    (∀ algorithm : ALGORITHMS, (mutate algorithm m pos k).1.buf.length = m.buf.length) ∧
    (mutate .ALGORITHM_XOR (mutate .ALGORITHM_XOR m pos k).1 pos k).1.read pos = m.read pos ∧
    (mutate .ALGORITHM_XOR (mutate .ALGORITHM_XOR m pos k).1 pos k).2
      = ⟨pos, k, m.read pos ^^^ (1 <<< k), m.read pos⟩ ∧
    ((m.read pos).testBit k = true → (mutate .ALGORITHM_OR m pos k).1.read pos = m.read pos) := by
  have hx := applyAlgorithm_xor (m.read pos) k hk hold
  have ho := applyAlgorithm_or (m.read pos) k hk hold
  have hx2 : applyAlgorithm .ALGORITHM_XOR (m.read pos ^^^ (1 <<< k)) k = m.read pos := by
    rw [applyAlgorithm_xor _ k hk (@Nat.xor_lt_two_pow _ _ 8 hold (shiftLeft_one_lt k hk))]
    rw [Nat.xor_assoc, Nat.xor_self, Nat.xor_zero]
  refine ⟨?_, ?_, ?_, ?_, ?_, ?_, ?_, ?_, ?_⟩
  · simp only [mutate, hx]
  · simp only [mutate, hx, read_write_same]
  · simp only [mutate, ho]
  · simp only [mutate, ho, read_write_same]
  · intro algorithm q hq
    simp only [mutate]
    exact read_write_ne m pos q _ hq
  · intro algorithm
    simp only [mutate]
    exact write_buf_length m pos _
  · simp only [mutate, hx, read_write_same, hx2]
  · simp only [mutate, hx, read_write_same, hx2]
  · intro hbit
    simp only [mutate, ho, read_write_same]
    exact or_bit_already_set _ k hbit

/-- The example of C7: offset 7, bit 3, byte `0x41` under XOR gives `0x49`. -/
theorem C7_mutation_step_witness :
    (mutate .ALGORITHM_XOR ⟨[0, 1, 2, 3, 4, 5, 6, 0x41, 8, 9], fun _ => 0, true⟩ 7 3).2
      = ⟨7, 3, 0x41, 0x49⟩ ∧
    (mutate .ALGORITHM_XOR ⟨[0, 1, 2, 3, 4, 5, 6, 0x41, 8, 9], fun _ => 0, true⟩ 7 3).1.read 7 = 0x49 :=
  ⟨(C7_mutation_step ⟨[0, 1, 2, 3, 4, 5, 6, 0x41, 8, 9], fun _ => 0, true⟩ 7 3 (by decide)
      (by decide)).1,
   (C7_mutation_step ⟨[0, 1, 2, 3, 4, 5, 6, 0x41, 8, 9], fun _ => 0, true⟩ 7 3 (by decide)
      (by decide)).2.1⟩

/-! ## Bits that differ -/

theorem countP_le_add {α : Type} (l : List α) (p q r : α → Bool)
    (h : ∀ a, p a = true → q a = true ∨ r a = true) :
    l.countP p ≤ l.countP q + l.countP r := by
  induction l with
  | nil => simp
  | cons a t ih =>
    have ha := h a
    rw [List.countP_cons, List.countP_cons, List.countP_cons]
    cases hp : p a <;> cases hq : q a <;> cases hr : r a <;>
      simp [hp, hq, hr] at ha ⊢ <;> omega

theorem bitDiff_self (a : ℕ) : bitDiff a a = 0 := by
  unfold bitDiff
  simp

theorem bitDiff_triangle (a b c : ℕ) : bitDiff a c ≤ bitDiff a b + bitDiff b c := by
  unfold bitDiff
  rw [← List.countP_eq_length_filter, ← List.countP_eq_length_filter,
    ← List.countP_eq_length_filter]
  apply countP_le_add
  intro k hk
  by_cases h1 : a.testBit k = b.testBit k
  · right
    rw [← h1]
    exact hk
  · left
    simpa using h1

theorem bitDiff_le_one_of (a b k : ℕ)
    (h : ∀ i, i < 8 → i ≠ k → a.testBit i = b.testBit i) : bitDiff a b ≤ 1 := by
  unfold bitDiff
  rw [← List.countP_eq_length_filter]
  have hmono : (List.range 8).countP (fun i => a.testBit i != b.testBit i)
      ≤ (List.range 8).countP (fun i => i == k) := by
    apply List.countP_mono_left
    intro i hi hne
    have hi8 : i < 8 := List.mem_range.mp hi
    by_contra hik
    have : i ≠ k := by simpa using hik
    rw [h i hi8 this] at hne
    simp at hne
  have hcount : (List.range 8).countP (fun i => i == k) ≤ 1 := by
    exact List.nodup_iff_count_le_one.mp (List.nodup_range 8) k
  omega

theorem bitDiff_applyAlgorithm (algorithm : ALGORITHMS) (old k : ℕ) :
    bitDiff old (applyAlgorithm algorithm old k) ≤ 1 := by
  apply bitDiff_le_one_of old _ k
  intro i hi hik
  have hki : ¬ (k = i) := fun h => hik h.symm
  cases algorithm with
  | ALGORITHM_OR =>
    unfold applyAlgorithm
    simp only
    rw [show 256 = 2 ^ 8 by norm_num, Nat.testBit_mod_two_pow, Nat.testBit_or, Nat.one_shiftLeft,
      Nat.testBit_two_pow]
    simp [hi, hki]
  | ALGORITHM_XOR =>
    unfold applyAlgorithm
    simp only
    rw [show 256 = 2 ^ 8 by norm_num, Nat.testBit_mod_two_pow, Nat.testBit_xor, Nat.one_shiftLeft,
      Nat.testBit_two_pow]
    simp [hi, hki]

theorem hammingDist_self (xs : List ℕ) : hammingDist xs xs = 0 := by
  unfold hammingDist
  induction xs with
  | nil => rfl
  | cons a t ih => simp [bitDiff_self, ih]

theorem hammingDist_set (xs : List ℕ) :
    ∀ (ys : List ℕ) (p v : ℕ),
      hammingDist xs (ys.set p v) ≤ hammingDist xs ys + bitDiff (ys.getD p 0) v := by
  unfold hammingDist
  induction xs with
  | nil => intro ys p v; simp
  | cons x t ih =>
    intro ys p v
    cases ys with
    | nil => simp
    | cons y u =>
      cases p with
      | zero =>
        simp only [List.set_cons_zero, List.zipWith_cons_cons, List.sum_cons, List.getD_cons_zero]
        have := bitDiff_triangle x y v
        omega
      | succ p =>
        simp only [List.set_cons_succ, List.zipWith_cons_cons, List.sum_cons, List.getD_cons_succ]
        have := ih u p v
        omega

/-! ## The loop of `glitch` -/

theorem glitchLoop_zero (RAND_MAX : ℕ) (algorithm : ALGORITHMS) (first sz : ℤ) (s : LoopState) :
    glitchLoop RAND_MAX algorithm first sz 0 s = s := by
  unfold glitchLoop
  exact Function.iterate_zero_apply _ s

theorem glitchLoop_succ (RAND_MAX : ℕ) (algorithm : ALGORITHMS) (first sz : ℤ) (n : ℕ)
    (s : LoopState) :
    glitchLoop RAND_MAX algorithm first sz (n + 1) s
      = glitchLoop RAND_MAX algorithm first sz n (glitchIter RAND_MAX algorithm first sz s) := by
  unfold glitchLoop
  exact Function.iterate_succ_apply _ n s

theorem glitchIter_buf_length (RAND_MAX : ℕ) (algorithm : ALGORITHMS) (first sz : ℤ)
    (s : LoopState) :
    (glitchIter RAND_MAX algorithm first sz s).mem.buf.length = s.mem.buf.length := by
  unfold glitchIter mutate
  exact write_buf_length _ _ _

theorem glitchLoop_buf_length (RAND_MAX : ℕ) (algorithm : ALGORITHMS) (first sz : ℤ) (n : ℕ) :
    ∀ s : LoopState,
      (glitchLoop RAND_MAX algorithm first sz n s).mem.buf.length = s.mem.buf.length := by
  induction n with
  | zero => intro s; rw [glitchLoop_zero]
  | succ n ih =>
    intro s
    rw [glitchLoop_succ, ih, glitchIter_buf_length]

theorem glitchLoop_log_length (RAND_MAX : ℕ) (algorithm : ALGORITHMS) (first sz : ℤ) (n : ℕ) :
    ∀ s : LoopState,
      (glitchLoop RAND_MAX algorithm first sz n s).log.length = s.log.length + n := by
  induction n with
  | zero => intro s; rw [glitchLoop_zero]; rfl
  | succ n ih =>
    intro s
    rw [glitchLoop_succ, ih]
    unfold glitchIter
    simp only [List.length_append, List.length_singleton]
    omega

/-- The memory is intact after a pass exactly when it was intact before and
the pass stayed inside the block. -/
theorem glitchIter_intact (RAND_MAX : ℕ) (algorithm : ALGORITHMS) (first sz : ℤ) (len : ℕ)
    (s : LoopState) (hlen : s.mem.buf.length = len)
    (h : s.mem.intact = true ↔ ∀ r ∈ s.log, 0 ≤ r.pos ∧ r.pos < (len : ℤ)) :
    ((glitchIter RAND_MAX algorithm first sz s).mem.intact = true ↔
      ∀ r ∈ (glitchIter RAND_MAX algorithm first sz s).log, 0 ≤ r.pos ∧ r.pos < (len : ℤ)) := by
  unfold glitchIter mutate
  simp only
  generalize toLong (random RAND_MAX (fl (first : ℚ)) (fl (sz : ℚ)) s.rng).1 = pos
  generalize (rand (random RAND_MAX (fl (first : ℚ)) (fl (sz : ℚ)) s.rng).2).1 % 8 = bit
  unfold Memory.write
  by_cases hin : s.mem.inBounds pos
  · rw [if_pos hin]
    simp only
    rw [h]
    unfold Memory.inBounds at hin
    rw [hlen] at hin
    constructor
    · intro hall r hr
      rcases List.mem_append.mp hr with h1 | h1
      · exact hall r h1
      · rw [List.mem_singleton.mp h1]
        exact hin
    · intro hall r hr
      exact hall r (List.mem_append.mpr (Or.inl hr))
  · rw [if_neg hin]
    simp only
    constructor
    · intro hf
      exact absurd hf (by simp)
    · intro hall
      exfalso
      apply hin
      unfold Memory.inBounds
      rw [hlen]
      exact hall _ (List.mem_append.mpr (Or.inr (List.mem_singleton.mpr rfl)))

theorem glitchLoop_intact (RAND_MAX : ℕ) (algorithm : ALGORITHMS) (first sz : ℤ) (len : ℕ)
    (n : ℕ) :
    ∀ s : LoopState, s.mem.buf.length = len →
      (s.mem.intact = true ↔ ∀ r ∈ s.log, 0 ≤ r.pos ∧ r.pos < (len : ℤ)) →
      ((glitchLoop RAND_MAX algorithm first sz n s).mem.intact = true ↔
        ∀ r ∈ (glitchLoop RAND_MAX algorithm first sz n s).log,
          0 ≤ r.pos ∧ r.pos < (len : ℤ)) := by
  induction n with
  | zero => intro s _ h; rw [glitchLoop_zero]; exact h
  | succ n ih =>
    intro s hlen h
    rw [glitchLoop_succ]
    exact ih _ (by rw [glitchIter_buf_length]; exact hlen)
      (glitchIter_intact RAND_MAX algorithm first sz len s hlen h)

/-- One pass keeps the frame: the buffer changes in at most one bit, at an
offset that is not below the region start. -/
theorem glitchIter_frame (RAND_MAX : ℕ) (algorithm : ALGORITHMS) (input : List ℕ)
    (percent : ℚ) (s : LoopState) (n : ℕ) (hp0 : 0 ≤ percent) (hp : percent < 100)
    (hd : fl percent = percent)
    (h : Frame input (firstPos (input.length : ℤ) percent) s.mem.buf n)
    (hlog : ∀ r ∈ s.log, firstPos (input.length : ℤ) percent ≤ r.pos) :
    Frame input (firstPos (input.length : ℤ) percent)
      (glitchIter RAND_MAX algorithm (firstPos (input.length : ℤ) percent)
        (input.length : ℤ) s).mem.buf (n + 1) ∧
    ∀ r ∈ (glitchIter RAND_MAX algorithm (firstPos (input.length : ℤ) percent)
        (input.length : ℤ) s).log, firstPos (input.length : ℤ) percent ≤ r.pos := by
  obtain ⟨hlen, heq, hham⟩ := h
  have hge := firstPos_le_pos RAND_MAX input.length percent s.rng hp0 hp hd
  unfold glitchIter mutate
  simp only
  generalize toLong (random RAND_MAX (fl ((firstPos (input.length : ℤ) percent : ℤ) : ℚ))
    (fl ((input.length : ℤ) : ℚ)) s.rng).1 = pos at hge ⊢
  generalize (rand (random RAND_MAX (fl ((firstPos (input.length : ℤ) percent : ℤ) : ℚ))
    (fl ((input.length : ℤ) : ℚ)) s.rng).2).1 % 8 = bit
  constructor
  · unfold Memory.write
    by_cases hin : s.mem.inBounds pos
    · rw [if_pos hin]
      simp only
      have hin2 := hin
      unfold Memory.inBounds at hin2
      refine ⟨by rw [List.length_set]; exact hlen, ?_, ?_⟩
      · intro i hi
        have hne : pos.toNat ≠ i := by omega
        rw [List.getElem?_set_ne hne]
        exact heq i hi
      · have h1 := hammingDist_set input s.mem.buf pos.toNat
          (applyAlgorithm algorithm (s.mem.read pos) bit)
        have h2 : s.mem.buf.getD pos.toNat 0 = s.mem.read pos := by
          unfold Memory.read
          rw [if_pos hin]
        rw [h2] at h1
        have h3 := bitDiff_applyAlgorithm algorithm (s.mem.read pos) bit
        omega
    · rw [if_neg hin]
      exact ⟨hlen, heq, Nat.le_succ_of_le hham⟩
  · intro r hr
    rcases List.mem_append.mp hr with h1 | h1
    · exact hlog r h1
    · rw [List.mem_singleton.mp h1]
      exact hge

theorem glitchLoop_frame (RAND_MAX : ℕ) (algorithm : ALGORITHMS) (input : List ℕ)
    (percent : ℚ) (hp0 : 0 ≤ percent) (hp : percent < 100) (hd : fl percent = percent) (k : ℕ) :
    ∀ (s : LoopState) (n : ℕ),
      Frame input (firstPos (input.length : ℤ) percent) s.mem.buf n →
      (∀ r ∈ s.log, firstPos (input.length : ℤ) percent ≤ r.pos) →
      Frame input (firstPos (input.length : ℤ) percent)
        (glitchLoop RAND_MAX algorithm (firstPos (input.length : ℤ) percent)
          (input.length : ℤ) k s).mem.buf (n + k) ∧
      ∀ r ∈ (glitchLoop RAND_MAX algorithm (firstPos (input.length : ℤ) percent)
          (input.length : ℤ) k s).log, firstPos (input.length : ℤ) percent ≤ r.pos := by
  induction k with
  | zero => intro s n h hlog; rw [glitchLoop_zero]; exact ⟨h, hlog⟩
  | succ k ih =>
    intro s n h hlog
    rw [glitchLoop_succ]
    obtain ⟨h1, h2⟩ := glitchIter_frame RAND_MAX algorithm input percent s n hp0 hp hd h hlog
    have := ih _ (n + 1) h1 h2
    rw [show n + (k + 1) = n + 1 + k by omega]
    exact this

theorem glitch_output_eq (RAND_MAX : ℕ) (percent : ℚ) (iterations : ℤ) (algorithm : ALGORITHMS)
    (input : List ℕ) (heap : ℤ → ℕ) (draws : ℕ → ℕ) (out : List ℕ)
    (h : (glitch RAND_MAX percent iterations algorithm input heap draws).output = some out) :
    out = (glitchLoop RAND_MAX algorithm (firstPos (input.length : ℤ) percent)
      (input.length : ℤ) iterations.toNat ⟨⟨input, heap, true⟩, ⟨draws, 0⟩, []⟩).mem.buf := by
  unfold glitch at h
  simp only at h
  split_ifs at h with hi
  exact (Option.some.inj h).symm

theorem toLong_lt (x : ℚ) (z : ℤ) (hx : 0 ≤ x) (h : x < (z : ℚ)) : toLong x < z := by
  unfold toLong
  rw [if_pos hx]
  exact Int.floor_lt.mpr h

/-- For a buffer of at most `2^22` bytes and a double `percent` in `[0, 99]`
the region start is inside the buffer. -/
theorem firstPos_lt (sz : ℕ) (percent : ℚ) (h1 : 1 ≤ sz) (h2 : sz ≤ 2 ^ 22) (hp0 : 0 ≤ percent)
    (hp : percent ≤ 99) : firstPos (sz : ℤ) percent < (sz : ℤ) := by
  have hszq : (((sz : ℤ) : ℤ) : ℚ) = (sz : ℚ) := by push_cast; rfl
  have hsz1 : (1 : ℚ) ≤ (sz : ℚ) := by exact_mod_cast h1
  have hY : fl (sz : ℚ) = sz := fl_natCast sz (le_trans h2 (by norm_num))
  have hc0 : (0 : ℚ) ≤ fl (1 / 100) := fl_nonneg _ (by norm_num)
  have hx1 := fl_nonneg _ (mul_nonneg hc0 (le_trans zero_le_one hsz1))
  have hx1lo : (2 : ℚ) ^ (-1022 : ℤ) ≤ fl (1 / 100) * (sz : ℚ) := by
    rw [fl_one_hundredth]
    have h1 : (2 : ℚ) ^ (-1022 : ℤ) ≤ (2 : ℚ) ^ (-7 : ℤ) := two_zpow_le _ _ (by norm_num)
    have h2 : (2 : ℚ) ^ (-7 : ℤ) ≤ 5764607523034235 / 2 ^ 59 := by norm_num
    have h3 : (5764607523034235 / 2 ^ 59 : ℚ) * 1 ≤ 5764607523034235 / 2 ^ 59 * (sz : ℚ) :=
      mul_le_mul_of_nonneg_left hsz1 (by norm_num)
    linarith
  have hmul := fl_le_mul _ hx1lo
  have hP0 : 0 ≤ fl (fl (1 / 100) * (sz : ℚ)) * percent := mul_nonneg hx1 hp0
  have hP : fl (fl (1 / 100) * (sz : ℚ)) * percent ≤ (sz : ℚ) - 1 / 2 ^ 30 := by
    calc fl (fl (1 / 100) * (sz : ℚ)) * percent
        ≤ fl (1 / 100) * (sz : ℚ) * (1 + 1 / 2 ^ 53) * 99 :=
          mul_le_mul hmul hp hp0 (le_trans hx1 hmul)
      _ = (sz : ℚ) * (5764607523034235 / 2 ^ 59 * (1 + 1 / 2 ^ 53) * 99) := by
          rw [fl_one_hundredth]; ring
      _ ≤ (sz : ℚ) * (1 - 1 / 2 ^ 30) :=
          mul_le_mul_of_nonneg_left (by norm_num) (le_trans zero_le_one hsz1)
      _ ≤ (sz : ℚ) - 1 / 2 ^ 30 := by
          have : (sz : ℚ) * (1 / 2 ^ 30) ≥ 1 * (1 / 2 ^ 30) :=
            mul_le_mul_of_nonneg_right hsz1 (by norm_num)
          linarith
  have hz : (sz : ℚ) - 1 / 2 ^ 30 = (((sz : ℤ) * 2 ^ 30 - 1 : ℤ) : ℚ) * (2 : ℚ) ^ (-30 : ℤ) := by
    push_cast
    norm_num
    ring
  have hm : (sz : ℤ) * 2 ^ 30 - 1 ≤ 2 ^ 53 := by
    have : (sz : ℤ) ≤ 2 ^ 22 := by exact_mod_cast h2
    omega
  have hfl := fl_le_of_repr ((sz : ℤ) * 2 ^ 30 - 1) (-30) hm (by norm_num) _ hP0
    (by rw [← hz]; exact hP)
  rw [← hz] at hfl
  have hlt : fl (fl (fl (1 / 100) * (sz : ℚ)) * percent) < ((sz : ℤ) : ℚ) := by
    have : (sz : ℚ) - 1 / 2 ^ 30 < (sz : ℚ) := by norm_num
    push_cast
    linarith
  unfold firstPos
  rw [hszq, hY]
  exact toLong_lt _ _ (fl_nonneg _ hP0) hlt

/-- With `RAND_MAX = 2^31 - 1`, a buffer of at most `2^22` bytes and a double
`percent` in `[0, 99]`, the offset of a pass is inside the buffer. -/
theorem pos_lt_sz (sz : ℕ) (percent : ℚ) (g : Rng) (h1 : 1 ≤ sz) (h2 : sz ≤ 2 ^ 22)
    (hp0 : 0 ≤ percent) (hp : percent ≤ 99) (hd : fl percent = percent)
    (hr : g.draws g.next ≤ 2147483647) :
    toLong (random 2147483647 (fl ((firstPos (sz : ℤ) percent : ℤ) : ℚ))
      (fl (((sz : ℤ) : ℤ) : ℚ)) g).1 < (sz : ℤ) := by
  obtain ⟨h0, hfix, hle⟩ := firstPos_facts sz percent hp0 (lt_of_le_of_lt hp (by norm_num)) hd
  have hlt := firstPos_lt sz percent h1 h2 hp0 hp
  have hszq : (((sz : ℤ) : ℤ) : ℚ) = (sz : ℚ) := by push_cast; rfl
  have hY : fl (sz : ℚ) = sz := fl_natCast sz (le_trans h2 (by norm_num))
  rw [hfix, hszq, hY]
  obtain ⟨f, hf⟩ : ∃ f : ℕ, firstPos (sz : ℤ) percent = (f : ℤ) :=
    ⟨(firstPos (sz : ℤ) percent).toNat, by omega⟩
  rw [hf] at hlt ⊢
  have hfsz : f < sz := by exact_mod_cast hlt
  have hfq : ((f : ℤ) : ℚ) = (f : ℚ) := by push_cast; rfl
  rw [hfq]
  unfold random
  split_ifs with hfz
  · simp only
    have := toLong_intCast (f : ℤ)
    rw [hfq] at this
    rw [this]
    exact hlt
  · simp only
    have hfle : (f : ℚ) ≤ (sz : ℚ) := by exact_mod_cast hfsz.le
    have hmin : MIN (f : ℚ) (sz : ℚ) = f := by
      unfold MIN
      rw [if_neg (not_lt.mpr hfle)]
    have hmax : MAX (f : ℚ) (sz : ℚ) = sz := by
      unfold MAX
      rw [if_pos (by exact_mod_cast hfsz)]
    rw [hmin, hmax]
    -- every intermediate result is exact
    have hdq : (sz : ℚ) - (f : ℚ) = ((sz - f : ℕ) : ℚ) := by
      rw [Nat.cast_sub hfsz.le]
    have hdle : sz - f ≤ 2 ^ 22 := le_trans (Nat.sub_le _ _) h2
    have hd1 : fl ((sz : ℚ) - (f : ℚ)) = ((sz - f : ℕ) : ℚ) := by
      rw [hdq]
      exact fl_natCast _ (le_trans hdle (by norm_num))
    have hr1 : fl ((rand g).1 : ℚ) = ((rand g).1 : ℚ) :=
      fl_natCast _ (le_trans hr (by norm_num))
    have hrle : (rand g).1 ≤ 2147483647 := hr
    have hprodle : (sz - f) * (rand g).1 ≤ 2 ^ 22 * 2147483647 := Nat.mul_le_mul hdle hrle
    have hprod : fl (((sz - f : ℕ) : ℚ) * ((rand g).1 : ℚ))
        = (((sz - f) * (rand g).1 : ℕ) : ℚ) := by
      rw [← Nat.cast_mul]
      exact fl_natCast _ (le_trans hprodle (by norm_num))
    have hden : fl (fl ((2147483647 : ℕ) : ℚ) + 1) = 2147483648 := by
      rw [fl_natCast 2147483647 (by norm_num)]
      have := fl_natCast 2147483648 (by norm_num)
      norm_num at this ⊢
      exact this
    have hquot : fl ((((sz - f) * (rand g).1 : ℕ) : ℚ) / 2147483648)
        = (((sz - f) * (rand g).1 : ℕ) : ℚ) / 2147483648 := by
      have := fl_of_repr (((sz - f) * (rand g).1 : ℕ) : ℤ) (-31) (by positivity)
        (by
          have : (((sz - f) * (rand g).1 : ℕ) : ℤ) ≤ ((2 ^ 22 * 2147483647 : ℕ) : ℤ) := by
            exact_mod_cast hprodle
          have h3 : ((2 ^ 22 * 2147483647 : ℕ) : ℤ) ≤ 2 ^ 53 := by norm_num
          exact le_trans this h3)
        (by norm_num)
      have he : ((((sz - f) * (rand g).1 : ℕ) : ℤ) : ℚ) * (2 : ℚ) ^ (-31 : ℤ)
          = (((sz - f) * (rand g).1 : ℕ) : ℚ) / 2147483648 := by
        push_cast
        norm_num
        ring
      rw [he] at this
      exact this
    rw [hd1, hr1, hprod, hden, hquot]
    -- the exact sum stays below `sz - 2^-31`
    have hsum0 : (0 : ℚ) ≤ (f : ℚ) + (((sz - f) * (rand g).1 : ℕ) : ℚ) / 2147483648 := by
      positivity
    have hbound : (f : ℚ) + (((sz - f) * (rand g).1 : ℕ) : ℚ) / 2147483648
        ≤ (sz : ℚ) - 1 / 2 ^ 31 := by
      have hd1' : (1 : ℚ) ≤ ((sz - f : ℕ) : ℚ) := by
        have : 1 ≤ sz - f := by omega
        exact_mod_cast this
      have hrq : ((rand g).1 : ℚ) ≤ 2147483647 := by exact_mod_cast hrle
      have hd0 : (0 : ℚ) ≤ ((sz - f : ℕ) : ℚ) := Nat.cast_nonneg _
      have hmul : ((sz - f : ℕ) : ℚ) * ((rand g).1 : ℚ) ≤ ((sz - f : ℕ) : ℚ) * 2147483647 :=
        mul_le_mul_of_nonneg_left hrq hd0
      rw [Nat.cast_mul]
      have hdiv : ((sz - f : ℕ) : ℚ) * ((rand g).1 : ℚ) / 2147483648
          ≤ ((sz - f : ℕ) : ℚ) * 2147483647 / 2147483648 :=
        div_le_div_of_nonneg_right hmul (by norm_num)
      have hsplit : ((sz - f : ℕ) : ℚ) * 2147483647 / 2147483648
          = ((sz - f : ℕ) : ℚ) - ((sz - f : ℕ) : ℚ) / 2147483648 := by ring
      have hlast : (1 : ℚ) / 2 ^ 31 ≤ ((sz - f : ℕ) : ℚ) / 2147483648 := by
        rw [show (2 : ℚ) ^ 31 = 2147483648 by norm_num]
        exact div_le_div_of_nonneg_right hd1' (by norm_num)
      rw [← hdq] at hsplit hlast
      rw [← hdq] at hdiv
      linarith
    have hz : (sz : ℚ) - 1 / 2 ^ 31
        = (((sz : ℤ) * 2 ^ 31 - 1 : ℤ) : ℚ) * (2 : ℚ) ^ (-31 : ℤ) := by
      push_cast
      norm_num
      ring
    have hm : (sz : ℤ) * 2 ^ 31 - 1 ≤ 2 ^ 53 := by
      have : (sz : ℤ) ≤ 2 ^ 22 := by exact_mod_cast h2
      omega
    have hfl := fl_le_of_repr ((sz : ℤ) * 2 ^ 31 - 1) (-31) hm (by norm_num) _ hsum0
      (by rw [← hz]; exact hbound)
    rw [← hz] at hfl
    apply toLong_lt _ _ (fl_nonneg _ hsum0)
    have : (sz : ℚ) - 1 / 2 ^ 31 < (sz : ℚ) := by norm_num
    rw [hszq]
    linarith

theorem rand_draws (g : Rng) : (rand g).2.draws = g.draws := rfl

theorem random_draws (RAND_MAX : ℕ) (x y : ℚ) (g : Rng) :
    (random RAND_MAX x y g).2.draws = g.draws := by
  unfold random
  by_cases h : fuzzyEqual x y = true
  · rw [if_pos h]
  · rw [if_neg h]
    exact rand_draws g

theorem glitchIter_rng (RAND_MAX : ℕ) (algorithm : ALGORITHMS) (first sz : ℤ) (s : LoopState) :
    (glitchIter RAND_MAX algorithm first sz s).rng
      = (rand (random RAND_MAX (fl (first : ℚ)) (fl (sz : ℚ)) s.rng).2).2 := rfl

theorem glitchIter_draws (RAND_MAX : ℕ) (algorithm : ALGORITHMS) (first sz : ℤ)
    (s : LoopState) :
    (glitchIter RAND_MAX algorithm first sz s).rng.draws = s.rng.draws := by
  rw [glitchIter_rng, rand_draws, random_draws]

/-- With `RAND_MAX = 2^31 - 1`, a buffer of at most `2^22` bytes and a double
`percent` in `[0, 99]`, every pass of the loop stays inside the buffer. -/
theorem glitchLoop_inBlock (algorithm : ALGORITHMS) (sz : ℕ) (percent : ℚ) (h1 : 1 ≤ sz)
    (h2 : sz ≤ 2 ^ 22) (hp0 : 0 ≤ percent) (hp : percent ≤ 99) (hd : fl percent = percent)
    (k : ℕ) :
    ∀ s : LoopState, (∀ i, s.rng.draws i ≤ 2147483647) →
      (∀ r ∈ s.log, 0 ≤ r.pos ∧ r.pos < (sz : ℤ)) →
      ∀ r ∈ (glitchLoop 2147483647 algorithm (firstPos (sz : ℤ) percent) (sz : ℤ) k s).log,
        0 ≤ r.pos ∧ r.pos < (sz : ℤ) := by
  induction k with
  | zero => intro s _ hlog; rw [glitchLoop_zero]; exact hlog
  | succ k ih =>
    intro s hdraws hlog
    rw [glitchLoop_succ]
    apply ih
    · rw [glitchIter_draws]
      exact hdraws
    · intro r hr
      unfold glitchIter mutate at hr
      simp only at hr
      rcases List.mem_append.mp hr with hm | hm
      · exact hlog r hm
      · rw [List.mem_singleton.mp hm]
        simp only
        have hlo := firstPos_le_pos 2147483647 sz percent s.rng hp0
          (lt_of_le_of_lt hp (by norm_num)) hd
        have h0 := (firstPos_facts sz percent hp0 (lt_of_le_of_lt hp (by norm_num)) hd).1
        exact ⟨le_trans h0 hlo,
          pos_lt_sz sz percent s.rng h1 h2 hp0 hp hd (hdraws _)⟩

/-- C3 (as the code has it): the bytes that `glitch` writes are defined
exactly when every pass of the loop accessed an offset inside the buffer,
and then they are as many as the input has; for every input and every
double `percent` with `0 <= percent < 100`, every pass accesses an offset
that is at least the region start the code computes,
`firstPos = (long)(1e-2 * sz * percent)` in double arithmetic, and a defined
output equals the input at every offset below that `firstPos`, differs from
it only at offsets in `[firstPos, sz)`, and differs from it in at most
`iterations` bit positions in total; and the output is defined for every
non-empty input of at most `2^22` bytes when `percent <= 99`,
`RAND_MAX = 2^31 - 1` and `rand()` stays within `RAND_MAX`. -/
theorem C3_output_frame (RAND_MAX : ℕ) (percent : ℚ) (iterations : ℤ) (algorithm : ALGORITHMS)
    (input : List ℕ) (heap : ℤ → ℕ) (draws : ℕ → ℕ) :
    ((glitch RAND_MAX percent iterations algorithm input heap draws).output.isSome = true ↔
      ∀ r ∈ (glitch RAND_MAX percent iterations algorithm input heap draws).log,
        0 ≤ r.pos ∧ r.pos < (input.length : ℤ)) ∧
    (∀ out : List ℕ,
      (glitch RAND_MAX percent iterations algorithm input heap draws).output = some out →
        out.length = input.length) ∧
    (0 ≤ percent → percent < 100 → fl percent = percent →
      (∀ r ∈ (glitch RAND_MAX percent iterations algorithm input heap draws).log,
        firstPos (input.length : ℤ) percent ≤ r.pos) ∧
      (∀ out : List ℕ,
        (glitch RAND_MAX percent iterations algorithm input heap draws).output = some out →
          (∀ i : ℕ, (i : ℤ) < firstPos (input.length : ℤ) percent → out[i]? = input[i]?) ∧
          (∀ i : ℕ, out[i]? ≠ input[i]? →
            firstPos (input.length : ℤ) percent ≤ (i : ℤ) ∧ i < input.length) ∧
          hammingDist input out ≤ iterations.toNat)) ∧
    (RAND_MAX = 2147483647 → input ≠ [] → input.length ≤ 2 ^ 22 → 0 ≤ percent →
      percent ≤ 99 → fl percent = percent → (∀ k, draws k ≤ 2147483647) →
      (glitch RAND_MAX percent iterations algorithm input heap draws).output.isSome = true) := by
  have hint := glitchLoop_intact RAND_MAX algorithm (firstPos (input.length : ℤ) percent)
    (input.length : ℤ) input.length iterations.toNat
    ⟨⟨input, heap, true⟩, ⟨draws, 0⟩, []⟩ rfl (by simp)
  have hsome : ((glitch RAND_MAX percent iterations algorithm input heap draws).output.isSome
      = true ↔ (glitchLoop RAND_MAX algorithm (firstPos (input.length : ℤ) percent)
        (input.length : ℤ) iterations.toNat
        ⟨⟨input, heap, true⟩, ⟨draws, 0⟩, []⟩).mem.intact = true) := by
    unfold glitch
    simp only
    split_ifs with hi <;> simp [hi]
  refine ⟨?_, ?_, ?_, ?_⟩
  · rw [hsome, hint]
    rfl
  · intro out hout
    rw [glitch_output_eq RAND_MAX percent iterations algorithm input heap draws out hout,
      glitchLoop_buf_length]
  · intro hp0 hp hd
    have h0 : Frame input (firstPos (input.length : ℤ) percent)
        (LoopState.mk ⟨input, heap, true⟩ ⟨draws, 0⟩ []).mem.buf 0 :=
      ⟨rfl, fun _ _ => rfl, by simp [hammingDist_self]⟩
    obtain ⟨hframe, hlog⟩ := glitchLoop_frame RAND_MAX algorithm input percent hp0 hp hd
      iterations.toNat _ 0 h0 (by simp)
    rw [Nat.zero_add] at hframe
    refine ⟨hlog, ?_⟩
    intro out hout
    rw [glitch_output_eq RAND_MAX percent iterations algorithm input heap draws out hout]
    obtain ⟨hlen, heq, hham⟩ := hframe
    refine ⟨heq, ?_, hham⟩
    intro i hne
    constructor
    · by_contra hc
      exact hne (heq i (by omega))
    · by_contra hc
      apply hne
      rw [List.getElem?_eq_none (by omega), List.getElem?_eq_none (by omega)]
  · intro hRM hne hsz hp0 hp hd hdraws
    subst hRM
    rw [hsome, hint]
    have h1 : 1 ≤ input.length := by
      rcases input with _ | ⟨a, t⟩
      · exact absurd rfl hne
      · simp
    exact glitchLoop_inBlock algorithm input.length percent h1 hsz hp0 hp hd iterations.toNat
      ⟨⟨input, heap, true⟩, ⟨draws, 0⟩, []⟩ hdraws (by simp)

theorem fuzzyEqual_self (x : ℚ) : fuzzyEqual x x = true := by
  unfold fuzzyEqual
  rw [decide_eq_true_iff, sub_self, fl_zero]
  unfold fabs
  rw [abs_zero]
  apply fl_nonneg
  apply mul_nonneg (fl_nonneg _ (by norm_num))
  unfold MIN
  split_ifs <;> exact abs_nonneg x

theorem random_self (RAND_MAX : ℕ) (x : ℚ) (g : Rng) : random RAND_MAX x x g = (x, g) := by
  unfold random
  rw [if_pos (fuzzyEqual_self x)]

theorem glitchIter_log_of_eq (RAND_MAX : ℕ) (algorithm : ALGORITHMS) (first sz : ℤ)
    (h : fl (first : ℚ) = fl (sz : ℚ)) (s : LoopState) :
    (glitchIter RAND_MAX algorithm first sz s).log.map Record.pos
      = s.log.map Record.pos ++ [toLong (fl (first : ℚ))] := by
  unfold glitchIter mutate
  simp only [← h, random_self, List.map_append, List.map_cons, List.map_nil]

theorem glitchLoop_log_of_eq (RAND_MAX : ℕ) (algorithm : ALGORITHMS) (first sz : ℤ)
    (h : fl (first : ℚ) = fl (sz : ℚ)) (n : ℕ) :
    ∀ s : LoopState,
      (glitchLoop RAND_MAX algorithm first sz n s).log.map Record.pos
        = s.log.map Record.pos ++ List.replicate n (toLong (fl (first : ℚ))) := by
  induction n with
  | zero => intro s; rw [glitchLoop_zero]; simp
  | succ n ih =>
    intro s
    rw [glitchLoop_succ, ih, glitchIter_log_of_eq RAND_MAX algorithm first sz h,
      List.append_assoc, List.replicate_succ]
    rfl

/-- One pass of the loop when the two bounds of `random` are the same
double: the offset is that double, whatever `rand()` returns. -/
theorem glitchIter_mem_of_eq (RAND_MAX : ℕ) (algorithm : ALGORITHMS) (first sz : ℤ)
    (h : fl (first : ℚ) = fl (sz : ℚ)) (s : LoopState) :
    (glitchIter RAND_MAX algorithm first sz s).mem
      = (mutate algorithm s.mem (toLong (fl (first : ℚ))) ((rand s.rng).1 % 8)).1 := by
  unfold glitchIter
  simp only [← h, random_self]

/-- When `rand()` returns `0`, `random(x, y)` with `x <= y` not fuzzily
equal is the lower bound `x`. -/
theorem random_draw_zero (RAND_MAX : ℕ) (x y : ℚ) (draws : ℕ → ℕ) (k : ℕ) (hxy : x ≤ y)
    (hf : fuzzyEqual x y = false) (hx : fl x = x) (h : draws k = 0) :
    random RAND_MAX x y ⟨draws, k⟩ = (x, ⟨draws, k + 1⟩) := by
  unfold random
  rw [hf]
  have hlo : MIN x y = x := by
    unfold MIN
    rw [if_neg (not_lt.mpr hxy)]
  simp only [rand, h, hlo, Nat.cast_zero, fl_zero, mul_zero, zero_div, add_zero, hx]
  rfl

/-- One pass of the loop when `rand()` keeps returning `0`: offset `first`, bit `0`. -/
theorem glitchIter_draw_zero (RAND_MAX : ℕ) (algorithm : ALGORITHMS) (first sz : ℤ)
    (m : Memory) (k : ℕ) (log : List Record) (hxy : (first : ℚ) ≤ (sz : ℚ))
    (hfx : fl (first : ℚ) = first) (hfy : fl (sz : ℚ) = sz)
    (hf : fuzzyEqual (first : ℚ) (sz : ℚ) = false) :
    glitchIter RAND_MAX algorithm first sz ⟨m, ⟨fun _ => 0, k⟩, log⟩
      = ⟨(mutate algorithm m first 0).1, ⟨fun _ => 0, k + 1 + 1⟩,
          log ++ [(mutate algorithm m first 0).2]⟩ := by
  unfold glitchIter
  simp only
  rw [hfx, hfy, random_draw_zero RAND_MAX _ _ (fun _ => 0) k hxy hf hfx rfl]
  simp only [toLong_intCast, rand, Nat.zero_mod]

theorem fl_threshold_twenty_eight :
    fl (fl (1 / 10 ^ 12) * 28) = 4332790137498831 / 2 ^ 87 := by
  have h1 : fl (1 / 10 ^ 12) = 4951760157141521 / 2 ^ 92 := by
    rw [fl_eq_of_near_pos _ (-40) 4951760157141521 (by norm_num) (by norm_num) (by norm_num)
      (by norm_num) (by norm_num)]
    norm_num
  rw [h1, fl_eq_of_near_pos _ (-36) 8665580274997662 (by norm_num) (by norm_num) (by norm_num)
    (by norm_num) (by norm_num)]
  norm_num

theorem fuzzyEqual_twenty_eight : fuzzyEqual 28 58 = false := by
  unfold fuzzyEqual
  rw [decide_eq_false_iff_not]
  have hmin : MIN (fabs 28) (fabs 58) = 28 := by
    unfold MIN fabs
    norm_num [abs_of_pos]
  have h30 : fl ((28 : ℚ) - 58) = -30 := by
    have h := fl_natCast 30 (by norm_num)
    have hn := fl_neg 30
    rw [show ((28 : ℚ) - 58) = -30 by norm_num, hn]
    simpa using h
  rw [hmin, fl_threshold_twenty_eight, h30]
  unfold fabs
  norm_num [abs_of_pos]

theorem firstPos_fifty_eight : firstPos 58 50 = 28 := by
  unfold firstPos
  have h58 : fl (((58 : ℤ) : ℤ) : ℚ) = 58 := by
    have := fl_natCast 58 (by norm_num)
    simpa using this
  rw [h58, fl_one_hundredth]
  have h2 : fl (5764607523034235 / 2 ^ 59 * 58) = 5224175567749775 / 2 ^ 53 := by
    rw [fl_eq_of_near_pos _ (-1) 5224175567749775 (by norm_num) (by norm_num) (by norm_num)
      (by norm_num) (by norm_num)]
    norm_num
  rw [h2]
  have h3 : fl (5224175567749775 / 2 ^ 53 * 50) = 8162774324609023 / 2 ^ 48 := by
    rw [fl_eq_of_near_pos _ 4 8162774324609023 (by norm_num) (by norm_num) (by norm_num)
      (by norm_num) (by norm_num)]
    norm_num
  rw [h3]
  unfold toLong
  rw [if_pos (by norm_num)]
  rw [Int.floor_eq_iff]
  constructor <;> norm_num

/-- C3 fails as stated: for a 58-byte input at `percent = 50` the claim puts
the region start at `floor(0.01 * 50 * 58) = 29`, but `1e-2 * 58 * 50` is
`28.999999999999996` in double arithmetic and the code starts the region at
`28`; when `rand()` returns `0` the pass flips bit 0 of the byte at offset
`28`, so the output differs from the input below offset `29`.  And the bytes
written are not defined for every input: for the 5-byte input of C1 the
first pass accesses `buf[5]`. -/
theorem C3_region_start_below_floor :
    ⌊(1 / 100 : ℚ) * 50 * 58⌋ = 29 ∧
    firstPos 58 50 = 28 ∧
    (glitch 2147483647 50 1 .ALGORITHM_XOR (List.replicate 58 65) (fun _ => 0)
        (fun _ => 0)).output = some ((List.replicate 58 65).set 28 64) ∧
    ((List.replicate 58 65).set 28 64)[28]? ≠ (List.replicate 58 65)[28]? ∧
    (glitch 2147483647 (100 - 1 / 2 ^ 46) 1 .ALGORITHM_XOR [1, 2, 3, 4, 5] (fun _ => 0)
        (fun _ => 0)).output = none := by
  refine ⟨?_, firstPos_fifty_eight, ?_, by decide, ?_⟩
  · rw [Int.floor_eq_iff]
    constructor <;> norm_num
  · unfold glitch
    simp only
    have hlen : ((List.replicate 58 65 : List ℕ).length : ℤ) = 58 := by simp
    rw [hlen, firstPos_fifty_eight, show (1 : ℤ).toNat = 1 from rfl, glitchLoop_succ,
      glitchLoop_zero]
    rw [glitchIter_draw_zero 2147483647 .ALGORITHM_XOR 28 58 _ 0 [] (by norm_num)
      (by simpa using fl_natCast 28 (by norm_num)) (by simpa using fl_natCast 58 (by norm_num))
      (by simpa using fuzzyEqual_twenty_eight)]
    rfl
  · unfold glitch
    simp only
    have hlen : (([1, 2, 3, 4, 5] : List ℕ).length : ℤ) = 5 := rfl
    have h5 : toLong (fl ((5 : ℤ) : ℚ)) = 5 := by
      rw [show ((5 : ℤ) : ℚ) = 5 by norm_num, fl_five]
      exact toLong_intCast 5
    rw [hlen, firstPos_five, show (1 : ℤ).toNat = 1 from rfl, glitchLoop_succ, glitchLoop_zero,
      glitchIter_mem_of_eq 2147483647 .ALGORITHM_XOR 5 5 rfl, h5]
    rfl

theorem fl_fifty : fl 50 = 50 := by
  simpa using fl_natCast 50 (by norm_num)

theorem firstPos_ten_fifty : firstPos 10 50 = 5 := by
  unfold firstPos
  have h10 : fl (((10 : ℤ) : ℤ) : ℚ) = 10 := by
    simpa using fl_natCast 10 (by norm_num)
  rw [h10, fl_one_hundredth]
  have h2 : fl (5764607523034235 / 2 ^ 59 * 10) = 7205759403792794 / 2 ^ 56 := by
    rw [fl_eq_of_near_pos _ (-4) 7205759403792794 (by norm_num) (by norm_num) (by norm_num)
      (by norm_num) (by norm_num)]
    norm_num
  rw [h2]
  have h3 : fl (7205759403792794 / 2 ^ 56 * 50) = 5 := by
    rw [fl_eq_of_near_pos _ 2 5629499534213120 (by norm_num) (by norm_num) (by norm_num)
      (by norm_num) (by norm_num)]
    norm_num
  rw [h3]
  simpa using toLong_intCast 5

theorem fl_threshold_five : fl (fl (1 / 10 ^ 12) * 5) = 6189700196426901 / 2 ^ 90 := by
  have h1 : fl (1 / 10 ^ 12) = 4951760157141521 / 2 ^ 92 := by
    rw [fl_eq_of_near_pos _ (-40) 4951760157141521 (by norm_num) (by norm_num) (by norm_num)
      (by norm_num) (by norm_num)]
    norm_num
  rw [h1, fl_eq_of_near_pos _ (-38) 6189700196426901 (by norm_num) (by norm_num) (by norm_num)
    (by norm_num) (by norm_num)]
  norm_num

theorem fuzzyEqual_five_ten : fuzzyEqual 5 10 = false := by
  unfold fuzzyEqual
  rw [decide_eq_false_iff_not]
  have hmin : MIN (fabs 5) (fabs 10) = 5 := by
    unfold MIN fabs
    norm_num [abs_of_pos]
  have h5 : fl ((5 : ℚ) - 10) = -5 := by
    have h := fl_natCast 5 (by norm_num)
    rw [show ((5 : ℚ) - 10) = -5 by norm_num, fl_neg 5]
    simpa using h
  rw [hmin, fl_threshold_five, h5]
  unfold fabs
  norm_num [abs_of_pos]

/-- The run of `glitch` on ten bytes at `percent = 50` with three XOR passes
when `rand()` keeps returning `0`: bit 0 of the byte at offset 5 is flipped
three times. -/
theorem glitch_ten_fifty :
    (glitch 2147483647 50 3 .ALGORITHM_XOR [65, 66, 67, 68, 69, 70, 71, 72, 73, 74]
        (fun _ => 0) (fun _ => 0)).output
      = some [65, 66, 67, 68, 69, 71, 71, 72, 73, 74] := by
  unfold glitch
  simp only
  have hlen : (([65, 66, 67, 68, 69, 70, 71, 72, 73, 74] : List ℕ).length : ℤ) = 10 := rfl
  have hx : fl ((5 : ℤ) : ℚ) = ((5 : ℤ) : ℚ) := by simpa using fl_natCast 5 (by norm_num)
  have hy : fl ((10 : ℤ) : ℚ) = ((10 : ℤ) : ℚ) := by simpa using fl_natCast 10 (by norm_num)
  have hf : fuzzyEqual ((5 : ℤ) : ℚ) ((10 : ℤ) : ℚ) = false := by
    simpa using fuzzyEqual_five_ten
  rw [hlen, firstPos_ten_fifty, show (3 : ℤ).toNat = 2 + 1 from rfl, glitchLoop_succ,
    glitchLoop_succ, glitchLoop_succ, glitchLoop_zero,
    glitchIter_draw_zero 2147483647 .ALGORITHM_XOR 5 10 _ 0 [] (by norm_num) hx hy hf,
    glitchIter_draw_zero 2147483647 .ALGORITHM_XOR 5 10 _ _ _ (by norm_num) hx hy hf,
    glitchIter_draw_zero 2147483647 .ALGORITHM_XOR 5 10 _ _ _ (by norm_num) hx hy hf]
  rfl

/-- The amended C3 at a ten-byte input with `percent = 50` and three passes:
the output is defined, equals the input below offset 5 and differs from it
in at most 3 bit positions. -/
theorem C3_output_frame_witness :
    (glitch 2147483647 50 3 .ALGORITHM_XOR [65, 66, 67, 68, 69, 70, 71, 72, 73, 74]
        (fun _ => 0) (fun _ => 0)).output
      = some [65, 66, 67, 68, 69, 71, 71, 72, 73, 74] ∧
    (∀ i : ℕ, (i : ℤ) < firstPos 10 50 →
      [65, 66, 67, 68, 69, 71, 71, 72, 73, 74][i]?
        = [65, 66, 67, 68, 69, 70, 71, 72, 73, 74][i]?) ∧
    hammingDist [65, 66, 67, 68, 69, 70, 71, 72, 73, 74]
      [65, 66, 67, 68, 69, 71, 71, 72, 73, 74] ≤ 3 ∧
    (glitch 2147483647 50 3 .ALGORITHM_XOR [65, 66, 67, 68, 69, 70, 71, 72, 73, 74]
        (fun _ => 0) (fun _ => 0)).output.isSome = true :=
  ⟨glitch_ten_fifty,
   (((C3_output_frame 2147483647 50 3 .ALGORITHM_XOR [65, 66, 67, 68, 69, 70, 71, 72, 73, 74]
      (fun _ => 0) (fun _ => 0)).2.2.1 (by norm_num) (by norm_num) fl_fifty).2
      [65, 66, 67, 68, 69, 71, 71, 72, 73, 74] glitch_ten_fifty).1,
   (((C3_output_frame 2147483647 50 3 .ALGORITHM_XOR [65, 66, 67, 68, 69, 70, 71, 72, 73, 74]
      (fun _ => 0) (fun _ => 0)).2.2.1 (by norm_num) (by norm_num) fl_fifty).2
      [65, 66, 67, 68, 69, 71, 71, 72, 73, 74] glitch_ten_fifty).2.2,
   (C3_output_frame 2147483647 50 3 .ALGORITHM_XOR [65, 66, 67, 68, 69, 70, 71, 72, 73, 74]
      (fun _ => 0) (fun _ => 0)).2.2.2 rfl (by simp) (by norm_num) (by norm_num) (by norm_num)
      fl_fifty (fun _ => by norm_num)⟩

/-- C1 fails on the code: for a file of 5 bytes and `percent` the double
`100 - 2^-46` (the value of `99.99999999999999`), the product
`1e-2 * sz * percent` rounds to `5.0`, so the region start equals the
length, and every pass of the loop, whatever `rand()` returns, accesses
`buf[5]`, one past the last byte of the buffer. -/
theorem C1_offset_reaches_length (RAND_MAX : ℕ) (iterations : ℤ) (algorithm : ALGORITHMS)
    (heap : ℤ → ℕ) (draws : ℕ → ℕ) :
    (0 : ℚ) ≤ 100 - 1 / 2 ^ 46 ∧ (100 : ℚ) - 1 / 2 ^ 46 < 100 ∧
    firstPos 5 (100 - 1 / 2 ^ 46) = 5 ∧
    (glitch RAND_MAX (100 - 1 / 2 ^ 46) iterations algorithm [1, 2, 3, 4, 5] heap draws).log.map
      Record.pos = List.replicate iterations.toNat 5 := by
  refine ⟨by norm_num, by norm_num, firstPos_five, ?_⟩
  unfold glitch
  simp only
  have hlen : (([1, 2, 3, 4, 5] : List ℕ).length : ℤ) = 5 := rfl
  rw [hlen, firstPos_five, glitchLoop_log_of_eq RAND_MAX algorithm 5 5 rfl]
  have h5 : toLong (fl ((5 : ℤ) : ℚ)) = 5 := by
    rw [show ((5 : ℤ) : ℚ) = 5 by norm_num, fl_five]
    exact toLong_intCast 5
  rw [h5]
  rfl

theorem firstPos_zero (percent : ℚ) : firstPos 0 percent = 0 := by
  unfold firstPos
  rw [show ((0 : ℤ) : ℚ) = 0 by norm_num, fl_zero, mul_zero, fl_zero, zero_mul, fl_zero]
  exact toLong_intCast 0

/-- C2 fails on the code: for an empty input the region start is `0` and
equals the length, yet the loop still makes `iterations` passes, each of
which reads and writes `buf[0]`, a byte outside the zero-byte buffer, so
that no output is defined as soon as one pass is made. -/
theorem C2_empty_input_still_mutates (RAND_MAX : ℕ) (percent : ℚ) (iterations : ℤ)
    (algorithm : ALGORITHMS) (heap : ℤ → ℕ) (draws : ℕ → ℕ) :
    firstPos 0 percent = 0 ∧
    (glitch RAND_MAX percent iterations algorithm [] heap draws).log.length = iterations.toNat ∧
    (glitch RAND_MAX percent iterations algorithm [] heap draws).log.map Record.pos
      = List.replicate iterations.toNat 0 ∧
    (glitch RAND_MAX percent iterations algorithm [] heap draws).output
      = if iterations.toNat = 0 then some [] else none := by
  have hlen : ((([] : List ℕ).length : ℕ) : ℤ) = 0 := rfl
  refine ⟨firstPos_zero percent, ?_, ?_, ?_⟩
  · unfold glitch
    simp only
    rw [glitchLoop_log_length]
    simp
  · unfold glitch
    simp only
    rw [hlen, firstPos_zero, glitchLoop_log_of_eq RAND_MAX algorithm 0 0 rfl]
    have h0 : toLong (fl ((0 : ℤ) : ℚ)) = 0 := by
      rw [show ((0 : ℤ) : ℚ) = 0 by norm_num, fl_zero]
      exact toLong_intCast 0
    rw [h0]
    rfl
  · have hint := glitchLoop_intact RAND_MAX algorithm (firstPos (([] : List ℕ).length : ℤ) percent)
      (([] : List ℕ).length : ℤ) 0 iterations.toNat
      ⟨⟨[], heap, true⟩, ⟨draws, 0⟩, []⟩ rfl (by simp)
    have hbuf := glitchLoop_buf_length RAND_MAX algorithm
      (firstPos (([] : List ℕ).length : ℤ) percent) (([] : List ℕ).length : ℤ) iterations.toNat
      ⟨⟨[], heap, true⟩, ⟨draws, 0⟩, []⟩
    have hlog := glitchLoop_log_length RAND_MAX algorithm
      (firstPos (([] : List ℕ).length : ℤ) percent) (([] : List ℕ).length : ℤ) iterations.toNat
      ⟨⟨[], heap, true⟩, ⟨draws, 0⟩, []⟩
    unfold glitch
    simp only
    by_cases hn : iterations.toNat = 0
    · rw [if_pos hn, hn, glitchLoop_zero]
      rfl
    · rw [if_neg hn]
      have hfalse : ¬ ((glitchLoop RAND_MAX algorithm (firstPos (([] : List ℕ).length : ℤ) percent)
          (([] : List ℕ).length : ℤ) iterations.toNat
          ⟨⟨[], heap, true⟩, ⟨draws, 0⟩, []⟩).mem.intact = true) := by
        intro hi
        have hall := hint.mp hi
        cases hl : (glitchLoop RAND_MAX algorithm (firstPos (([] : List ℕ).length : ℤ) percent)
          (([] : List ℕ).length : ℤ) iterations.toNat
          ⟨⟨[], heap, true⟩, ⟨draws, 0⟩, []⟩).log with
        | nil =>
          rw [hl] at hlog
          simp at hlog
          exact hn hlog.symm
        | cons r t =>
          have := hall r (by rw [hl]; exact List.mem_cons_self _ _)
          simp at this
          omega
      rw [if_neg hfalse]

/-! ## `main` -/

theorem validate_rejected (cfg : Config) (h : cfg.rejected) :
    validate cfg = ⟨EXIT_FAILURE, true, none⟩ := by
  unfold validate
  rcases h with h | h | h | h
  · simp [h]
  · simp [h]
  · split_ifs <;> rfl
  · split_ifs <;> rfl

theorem validate_accepted (cfg : Config) (h : ¬ cfg.rejected) :
    validate cfg = ⟨EXIT_SUCCESS, false, some cfg⟩ := by
  unfold Config.rejected at h
  push_neg at h
  obtain ⟨h1, h2, h3, h4⟩ := h
  unfold validate
  rw [if_neg (by simp [h1, h2]), if_neg (not_le.mpr h3), if_neg (not_lt.mpr h4)]

theorem validate_code_zero (cfg : Config) (h : (validate cfg).code = 0) :
    (validate cfg).glitched ≠ none := by
  by_cases hr : cfg.rejected
  · rw [validate_rejected cfg hr] at h
    exact absurd h (by decide)
  · rw [validate_accepted cfg hr]
    simp

theorem handleOption_stop (atoi : String → ℤ) (atof : String → ℚ) (cfg : Config) (e : OptEvent)
    (x : Exit) (h : handleOption atoi atof cfg e = .inr x) (hx : x.code = 0) : isHelpEvent e := by
  unfold handleOption at h
  split_ifs at h with h1 h2 h3 h4 h5 h6 h7 h8 h9
  · exact h7
  · cases h
    exact absurd hx (by decide)

theorem parseLoop_stop (atoi : String → ℤ) (atof : String → ℚ) (events : List OptEvent) :
    ∀ (cfg : Config) (x : Exit), parseLoop atoi atof cfg events = .inr x → x.code = 0 →
      ∃ e ∈ events, isHelpEvent e := by
  induction events with
  | nil => intro cfg x h; simp [parseLoop] at h
  | cons e rest ih =>
    intro cfg x h hx
    unfold parseLoop at h
    split_ifs at h with hc
    cases hstep : handleOption atoi atof cfg e with
    | inl cfg1 =>
      rw [hstep] at h
      obtain ⟨e1, he1, hh⟩ := ih cfg1 x h hx
      exact ⟨e1, List.mem_cons_of_mem _ he1, hh⟩
    | inr y =>
      rw [hstep, Sum.inr.injEq] at h
      rw [← h] at hx
      exact ⟨e, List.mem_cons_self _ _, handleOption_stop atoi atof cfg e y hstep hx⟩

/-- C6 (as the code has it): when `getopt_long` returns the question mark,
for the option `-?` or for an option it does not recognize, `main` prints
the usage text and returns `0` without calling `glitch`, whatever was
parsed before; and `main` returns `0` only when `glitch` was called or
when one of the returns of `getopt_long` was `h`, the question mark or
`SELECT_HELP`. -/
theorem C6_question_mark_returns_zero (atoi : String → ℤ) (atof : String → ℚ) (cfg : Config)
    (optarg : String) (rest events : List OptEvent) :
    mainFrom atoi atof cfg (⟨CHAR_question, optarg⟩ :: rest) = ⟨0, true, none⟩ ∧
    ((main atoi atof events).code = 0 →
      (main atoi atof events).glitched ≠ none ∨ ∃ e ∈ events, isHelpEvent e) := by
  constructor
  · rfl
  · intro h
    unfold main mainFrom at h ⊢
    cases hp : parseLoop atoi atof Config.initial events with
    | inl cfg1 =>
      rw [hp] at h
      exact Or.inl (validate_code_zero cfg1 h)
    | inr x =>
      rw [hp] at h
      exact Or.inr (parseLoop_stop atoi atof events _ x hp h)

/-- The amended C6 at the option sequences `-?` and `--in a.jpg -?`. -/
theorem C6_question_mark_returns_zero_witness :
    mainFrom (fun _ => 0) (fun _ => 0) Config.initial [⟨CHAR_question, ""⟩] = ⟨0, true, none⟩ ∧
    ((main (fun _ => 0) (fun _ => 0) [⟨SELECT_IN, "a.jpg"⟩, ⟨CHAR_question, ""⟩]).glitched ≠ none ∨
      ∃ e ∈ [(⟨SELECT_IN, "a.jpg"⟩ : OptEvent), ⟨CHAR_question, ""⟩], isHelpEvent e) :=
  ⟨(C6_question_mark_returns_zero (fun _ => 0) (fun _ => 0) Config.initial "" [] []).1,
   (C6_question_mark_returns_zero (fun _ => 0) (fun _ => 0) Config.initial "" []
      [⟨SELECT_IN, "a.jpg"⟩, ⟨CHAR_question, ""⟩]).2 (by rfl)⟩

/-- C6 fails as stated: an unrecognized option, reported by `getopt_long`
as the question mark, ends `main` with exit code `0`, not `EXIT_FAILURE`. -/
theorem C6_unrecognized_option_exit_zero :
    (main (fun _ => 0) (fun _ => 0)
        [⟨SELECT_IN, "a.jpg"⟩, ⟨SELECT_OUT, "b.jpg"⟩, ⟨CHAR_question, ""⟩]).code = 0 ∧
    (main (fun _ => 0) (fun _ => 0)
        [⟨SELECT_IN, "a.jpg"⟩, ⟨SELECT_OUT, "b.jpg"⟩, ⟨CHAR_question, ""⟩]).code ≠ EXIT_FAILURE ∧
    (main (fun _ => 0) (fun _ => 0)
        [⟨SELECT_IN, "a.jpg"⟩, ⟨SELECT_OUT, "b.jpg"⟩, ⟨CHAR_question, ""⟩]).glitched = none :=
  ⟨by rfl, by decide, by rfl⟩

theorem handleOption_algorithm (atoi : String → ℤ) (atof : String → ℚ) (cfg cfg1 : Config)
    (e : OptEvent) (h : handleOption atoi atof cfg e = .inl cfg1)
    (hne : isAlgorithmEvent e → e.optarg ≠ "OR") : cfg1.algorithm = cfg.algorithm := by
  unfold handleOption at h
  unfold isAlgorithmEvent at hne
  split_ifs at h with h1 h2 h3 h4 h5 h6 h7 h8 h9 <;> first
    | (cases h; rfl)
    | exact absurd h6 (hne h5)

theorem parseLoop_algorithm (atoi : String → ℤ) (atof : String → ℚ) (events : List OptEvent) :
    ∀ (cfg cfg1 : Config), parseLoop atoi atof cfg events = .inl cfg1 →
      (∀ e ∈ events, isAlgorithmEvent e → e.optarg ≠ "OR") → cfg1.algorithm = cfg.algorithm := by
  induction events with
  | nil => intro cfg cfg1 h _; simp [parseLoop] at h; rw [h]
  | cons e rest ih =>
    intro cfg cfg1 h hne
    unfold parseLoop at h
    split_ifs at h with hc
    · cases h; rfl
    · cases hstep : handleOption atoi atof cfg e with
      | inl cfg2 =>
        rw [hstep] at h
        rw [ih cfg2 cfg1 h (fun e1 he1 => hne e1 (List.mem_cons_of_mem _ he1))]
        exact handleOption_algorithm atoi atof cfg cfg2 e hstep (hne e (List.mem_cons_self _ _))
      | inr y =>
        rw [hstep] at h
        cases h

/-- C8 (as the code has it): an `--algorithm` / `-a` option whose value is
exactly "OR" selects OR; with any other value it leaves the operator as it
was; the operator starts as XOR, so it is XOR at the end of the option loop
when no `-a` option had the value "OR". -/
theorem C8_algorithm_option (atoi : String → ℤ) (atof : String → ℚ) (cfg : Config) (e : OptEvent)
    (he : e.c = CHAR_a ∨ e.c = SELECT_ALGORITHM) :
    (e.optarg = "OR" →
      handleOption atoi atof cfg e = .inl { cfg with algorithm := .ALGORITHM_OR }) ∧
    (e.optarg ≠ "OR" → handleOption atoi atof cfg e = .inl cfg) ∧
    Config.initial.algorithm = .ALGORITHM_XOR ∧
    (∀ (events : List OptEvent) (cfg1 : Config),
      parseLoop atoi atof Config.initial events = .inl cfg1 →
      (∀ e1 ∈ events, (e1.c = CHAR_a ∨ e1.c = SELECT_ALGORITHM) → e1.optarg ≠ "OR") →
      cfg1.algorithm = .ALGORITHM_XOR) := by
  have hne : ¬ (e.c = SELECT_IN) ∧ ¬ (e.c = SELECT_OUT) ∧ ¬ (e.c = CHAR_i ∨ e.c = SELECT_ITERATIONS)
      ∧ ¬ (e.c = CHAR_p ∨ e.c = SELECT_PERCENT) := by
    unfold SELECT_IN SELECT_OUT CHAR_i SELECT_ITERATIONS CHAR_p SELECT_PERCENT
    unfold CHAR_a SELECT_ALGORITHM at he
    omega
  obtain ⟨n1, n2, n3, n4⟩ := hne
  refine ⟨?_, ?_, rfl, ?_⟩
  · intro h
    unfold handleOption
    rw [if_neg n1, if_neg n2, if_neg n3, if_neg n4, if_pos he, if_pos h]
  · intro h
    unfold handleOption
    rw [if_neg n1, if_neg n2, if_neg n3, if_neg n4, if_pos he, if_neg h]
  · intro events cfg1 hp hall
    exact parseLoop_algorithm atoi atof events Config.initial cfg1 hp hall

/-- The amended C8 at `-a XOR` after OR was selected, and at `--algorithm OR`. -/
theorem C8_algorithm_option_witness :
    handleOption (fun _ => 0) (fun _ => 0) ⟨0, 10, false, none, none, 10, .ALGORITHM_OR⟩
        ⟨CHAR_a, "XOR"⟩ = .inl ⟨0, 10, false, none, none, 10, .ALGORITHM_OR⟩ ∧
    handleOption (fun _ => 0) (fun _ => 0) Config.initial ⟨SELECT_ALGORITHM, "OR"⟩
        = .inl ⟨0, 10, false, none, none, 10, .ALGORITHM_OR⟩ :=
  ⟨(C8_algorithm_option (fun _ => 0) (fun _ => 0) ⟨0, 10, false, none, none, 10, .ALGORITHM_OR⟩
      ⟨CHAR_a, "XOR"⟩ (Or.inl rfl)).2.1 (by decide),
   (C8_algorithm_option (fun _ => 0) (fun _ => 0) Config.initial
      ⟨SELECT_ALGORITHM, "OR"⟩ (Or.inr rfl)).1 rfl⟩

/-- C8 fails as stated: after `-a OR -a XOR` the operator is OR, not XOR. -/
theorem C8_later_value_does_not_reset :
    parseLoop (fun _ => 0) (fun _ => 0) Config.initial [⟨CHAR_a, "OR"⟩, ⟨CHAR_a, "XOR"⟩]
      = .inl ⟨0, 10, false, none, none, 10, .ALGORITHM_OR⟩ ∧
    ALGORITHMS.ALGORITHM_OR ≠ ALGORITHMS.ALGORITHM_XOR :=
  ⟨by rfl, by decide⟩

/-- C5: when the option loop ends with a configuration that lacks the input
path or the output path, or has `percent >= 100` or `iterations < 1`, `main`
returns `EXIT_FAILURE` and does not call `glitch`; when the configuration
has both paths, `0 <= percent < 100` and `iterations >= 1`, `main` calls
`glitch` once, with that configuration, and returns `EXIT_SUCCESS`. -/
theorem C5_main_validation (atoi : String → ℤ) (atof : String → ℚ) (events : List OptEvent)
    (cfg : Config) (hparse : parseLoop atoi atof Config.initial events = .inl cfg) :
    ((cfg.infile = none ∨ cfg.outfile = none ∨ cfg.percent ≥ 100 ∨ cfg.iterations < 1) →
      (main atoi atof events).code = EXIT_FAILURE ∧ (main atoi atof events).glitched = none) ∧
    ((cfg.infile ≠ none ∧ cfg.outfile ≠ none ∧ 0 ≤ cfg.percent ∧ cfg.percent < 100 ∧
        1 ≤ cfg.iterations) →
      (main atoi atof events).code = EXIT_SUCCESS ∧
        (main atoi atof events).glitched = some cfg) := by
  have hm : main atoi atof events = validate cfg := by
    unfold main mainFrom
    rw [hparse]
  constructor
  · intro h
    rw [hm, validate_rejected cfg h]
    exact ⟨rfl, rfl⟩
  · rintro ⟨h1, h2, _, h4, h5⟩
    have : ¬ cfg.rejected := by
      unfold Config.rejected
      push_neg
      exact ⟨h1, h2, h4, by omega⟩
    rw [hm, validate_accepted cfg this]
    exact ⟨rfl, rfl⟩

/-- The validation theorem of C5 at `--in a.jpg --out b.jpg` and at `--in a.jpg` alone. -/
theorem C5_main_validation_witness :
    ((main (fun _ => 0) (fun _ => 0) [⟨SELECT_IN, "a.jpg"⟩, ⟨SELECT_OUT, "b.jpg"⟩]).code
        = EXIT_SUCCESS ∧
      (main (fun _ => 0) (fun _ => 0) [⟨SELECT_IN, "a.jpg"⟩, ⟨SELECT_OUT, "b.jpg"⟩]).glitched
        = some ⟨0, 10, false, some "a.jpg", some "b.jpg", 10, .ALGORITHM_XOR⟩) ∧
    ((main (fun _ => 0) (fun _ => 0) [⟨SELECT_IN, "a.jpg"⟩]).code = EXIT_FAILURE ∧
      (main (fun _ => 0) (fun _ => 0) [⟨SELECT_IN, "a.jpg"⟩]).glitched = none) :=
  ⟨(C5_main_validation (fun _ => 0) (fun _ => 0) [⟨SELECT_IN, "a.jpg"⟩, ⟨SELECT_OUT, "b.jpg"⟩]
      ⟨0, 10, false, some "a.jpg", some "b.jpg", 10, .ALGORITHM_XOR⟩ (by rfl)).2
      ⟨by simp, by simp, by norm_num, by norm_num, by norm_num⟩,
   (C5_main_validation (fun _ => 0) (fun _ => 0) [⟨SELECT_IN, "a.jpg"⟩]
      ⟨0, 10, false, some "a.jpg", none, 10, .ALGORITHM_XOR⟩ (by rfl)).1
      (Or.inr (Or.inl rfl))⟩

/-! ## A negative `percent` -/

theorem fl_ten : fl 10 = 10 := by
  rw [fl_eq_of_near_pos 10 3 5629499534213120 (by norm_num) (by norm_num) (by norm_num)
    (by norm_num) (by norm_num)]
  norm_num

theorem fl_neg_five : fl (-5) = -5 := by
  rw [fl_eq_of_near (-5) 2 (-5629499534213120) (by norm_num [abs_of_pos])
    (by norm_num [abs_of_pos]) (by norm_num) (by norm_num [abs_of_pos])]
  norm_num

theorem fl_neg_fifteen : fl (-15) = -15 := by
  rw [fl_eq_of_near (-15) 3 (-8444249301319680) (by norm_num [abs_of_pos])
    (by norm_num [abs_of_pos]) (by norm_num) (by norm_num [abs_of_pos])]
  norm_num

theorem firstPos_ten_neg_fifty : firstPos 10 (-50) = -5 := by
  unfold firstPos
  rw [show ((10 : ℤ) : ℚ) = 10 by norm_num, fl_ten, fl_one_hundredth]
  have h2 : fl (5764607523034235 / 2 ^ 59 * 10) = 7205759403792794 / 2 ^ 56 := by
    rw [fl_eq_of_near_pos _ (-4) 7205759403792794 (by norm_num) (by norm_num) (by norm_num)
      (by norm_num) (by norm_num)]
    norm_num
  rw [h2]
  have h3 : fl (7205759403792794 / 2 ^ 56 * (-50)) = -5 := by
    rw [fl_eq_of_near _ 2 (-5629499534213120) (by norm_num [abs_of_pos])
      (by norm_num [abs_of_pos]) (by norm_num) (by norm_num [abs_of_pos])]
    norm_num
  rw [h3]
  have := toLong_intCast (-5)
  simpa using this

theorem fuzzyEqual_neg_five_ten : fuzzyEqual (-5) 10 = false := by
  unfold fuzzyEqual
  rw [decide_eq_false_iff_not]
  have hmin : MIN (fabs (-5)) (fabs 10) = 5 := by
    unfold MIN fabs
    norm_num [abs_of_pos]
  rw [hmin, fl_threshold_five, show (-5 : ℚ) - 10 = -15 by norm_num, fl_neg_fifteen]
  unfold fabs
  norm_num [abs_of_pos]

theorem random_neg_five_ten_zero (RAND_MAX : ℕ) (draws : ℕ → ℕ) (k : ℕ) (h : draws k = 0) :
    random RAND_MAX (-5) 10 ⟨draws, k⟩ = (-5, ⟨draws, k + 1⟩) := by
  unfold random
  rw [fuzzyEqual_neg_five_ten]
  have hlo : MIN (-5) 10 = -5 := by
    unfold MIN
    norm_num
  simp only [rand, h, hlo, Nat.cast_zero, fl_zero, mul_zero, zero_div, add_zero, fl_neg_five]
  rfl

/-- C4 fails on the code: `main` only rejects `percent >= 100`; with
`-p -50` it calls `glitch` and returns `EXIT_SUCCESS`, and `glitch` then
computes the region start `-5` for a 10-byte file and, when `rand()`
returns `0`, accesses `buf[-5]`. -/
theorem C4_negative_percent_accepted (RAND_MAX : ℕ) (heap : ℤ → ℕ) :
    main (fun _ => 0) (fun _ => -50)
        [⟨SELECT_IN, "a.jpg"⟩, ⟨SELECT_OUT, "b.jpg"⟩, ⟨CHAR_p, "-50"⟩]
      = ⟨EXIT_SUCCESS, false,
          some ⟨0, 10, false, some "a.jpg", some "b.jpg", -50, .ALGORITHM_XOR⟩⟩ ∧
    firstPos 10 (-50) = -5 ∧
    (glitch RAND_MAX (-50) 1 .ALGORITHM_XOR [65, 65, 65, 65, 65, 65, 65, 65, 65, 65] heap
        (fun _ => 0)).log
      = [⟨-5, 0, heap (-5), applyAlgorithm .ALGORITHM_XOR (heap (-5)) 0⟩] := by
  refine ⟨?_, firstPos_ten_neg_fifty, ?_⟩
  · have hp : parseLoop (fun _ => 0) (fun _ => -50) Config.initial
        [⟨SELECT_IN, "a.jpg"⟩, ⟨SELECT_OUT, "b.jpg"⟩, ⟨CHAR_p, "-50"⟩]
        = .inl ⟨0, 10, false, some "a.jpg", some "b.jpg", -50, .ALGORITHM_XOR⟩ := by rfl
    unfold main mainFrom
    rw [hp]
    apply validate_accepted
    unfold Config.rejected
    norm_num
    simp
  · unfold glitch
    simp only
    have hlen : (([65, 65, 65, 65, 65, 65, 65, 65, 65, 65] : List ℕ).length : ℤ) = 10 := rfl
    rw [hlen, firstPos_ten_neg_fifty, show (1 : ℤ).toNat = 1 from rfl, glitchLoop_succ,
      glitchLoop_zero]
    unfold glitchIter
    simp only
    rw [show ((-5 : ℤ) : ℚ) = -5 by norm_num, show ((10 : ℤ) : ℚ) = 10 by norm_num,
      fl_neg_five, fl_ten, random_neg_five_ten_zero RAND_MAX _ 0 rfl]
    have ht : toLong (-5 : ℚ) = -5 := by
      have := toLong_intCast (-5)
      simpa using this
    simp only [ht, rand, mutate, List.nil_append, Nat.zero_mod]
    have hr : Memory.read ⟨[65, 65, 65, 65, 65, 65, 65, 65, 65, 65], heap, true⟩ (-5) = heap (-5) := by
      unfold Memory.read Memory.inBounds
      simp
    rw [hr]

/-! ## The header scan and the interactive region start -/

theorem headerLoop_spec (raw : List ℕ) (n i : ℕ) (hn : i + n + 1 = raw.length ∨ (n = 0 ∧ raw.length ≤ i + 1)) :
    ∃ h, headerLoop raw i n = some h ∧ h ≤ raw.length ∧
      ((∃ j, i ≤ j ∧ markerAt raw j ∧ (∀ k, i ≤ k → k < j → ¬ markerAt raw k) ∧ h = j + 2) ∨
       ((∀ k, i ≤ k → ¬ markerAt raw k) ∧ h = 0)) := by
  induction n generalizing i with
  | zero =>
    refine ⟨0, rfl, Nat.zero_le _, Or.inr ⟨?_, rfl⟩⟩
    intro k hk hm
    have h1 : k + 1 < raw.length := by
      by_contra hc
      have := hm.2
      rw [List.getElem?_eq_none (by omega)] at this
      exact absurd this (by simp)
    rcases hn with hn | hn <;> omega
  | succ n ih =>
    have hlen : i + n + 2 = raw.length := by
      rcases hn with hn | hn
      · omega
      · omega
    have hi : i < raw.length := by omega
    have hi1 : i + 1 < raw.length := by omega
    obtain ⟨h, hh, hle, hcase⟩ := ih (i + 1) (Or.inl (by omega))
    have notHere_of (hne : ¬ markerAt raw i) :
        ((∃ j, i ≤ j ∧ markerAt raw j ∧ (∀ k, i ≤ k → k < j → ¬ markerAt raw k) ∧ h = j + 2) ∨
          ((∀ k, i ≤ k → ¬ markerAt raw k) ∧ h = 0)) := by
      rcases hcase with ⟨j, hj, hm, hmin, hj2⟩ | ⟨hnone, h0⟩
      · refine Or.inl ⟨j, by omega, hm, ?_, hj2⟩
        intro k hk hkj
        rcases Nat.eq_or_lt_of_le hk with he | hl
        · subst he; exact hne
        · exact hmin k hl hkj
      · refine Or.inr ⟨?_, h0⟩
        intro k hk
        rcases Nat.eq_or_lt_of_le hk with he | hl
        · subst he; exact hne
        · exact hnone k hl
    unfold headerLoop
    rw [List.getElem?_eq_getElem hi]
    simp only
    by_cases ha : raw[i] = 0xFF
    · rw [if_pos ha, List.getElem?_eq_getElem hi1]
      simp only
      by_cases hb : raw[i + 1] = 0xDA
      · rw [if_pos hb]
        refine ⟨i + 2, rfl, by omega, Or.inl ⟨i, le_refl _, ?_, ?_, rfl⟩⟩
        · exact ⟨by rw [List.getElem?_eq_getElem hi, ha], by rw [List.getElem?_eq_getElem hi1, hb]⟩
        · intro k hk hki; omega
      · rw [if_neg hb]
        refine ⟨h, hh, hle, notHere_of ?_⟩
        intro hm
        have := hm.2
        rw [List.getElem?_eq_getElem hi1] at this
        exact hb (Option.some.inj this)
    · rw [if_neg ha]
      refine ⟨h, hh, hle, notHere_of ?_⟩
      intro hm
      have := hm.1
      rw [List.getElem?_eq_getElem hi] at this
      exact ha (Option.some.inj this)

/-- C9: the header scan always completes without reading outside the array
and yields `i + 2` for the smallest index `i` at which the bytes `FF DA`
stand, and `0` when there is no such index; the value is at most the size
of the array, and it is `0` for an array of fewer than two bytes. -/
theorem C9_headerSize_first_marker (raw : List ℕ) :
    ∃ h, headerSize raw = some h ∧ h ≤ raw.length ∧
      ((∃ i, markerAt raw i ∧ (∀ k, k < i → ¬ markerAt raw k) ∧ h = i + 2) ∨
       ((∀ k, ¬ markerAt raw k) ∧ h = 0)) ∧
      (raw.length ≤ 1 → h = 0) := by
  have hn : 0 + (raw.length - 1) + 1 = raw.length ∨ (raw.length - 1 = 0 ∧ raw.length ≤ 0 + 1) := by
    omega
  obtain ⟨h, hh, hle, hcase⟩ := headerLoop_spec raw (raw.length - 1) 0 hn
  refine ⟨h, hh, hle, ?_, ?_⟩
  · rcases hcase with ⟨j, _, hm, hmin, hj⟩ | ⟨hnone, h0⟩
    · exact Or.inl ⟨j, hm, fun k hk => hmin k (Nat.zero_le _) hk, hj⟩
    · exact Or.inr ⟨fun k => hnone k (Nat.zero_le _), h0⟩
  · intro hsmall
    rcases hcase with ⟨j, _, hm, _, _⟩ | ⟨_, h0⟩
    · exfalso
      have := hm.2
      rw [List.getElem?_eq_none (by omega)] at this
      exact absurd this (by simp)
    · exact h0

/-- C10 fails on the code: with the slider at its maximum the region start
equals the size of the array, so the single-bit branch reads and writes
`raw[size]`, one past the last byte. -/
theorem C10_maximum_reaches_size :
    headerSize [1, 2, 3, 4] = some 0 ∧
    guiFirstPos 4 0 99 0 99 = some 4 ∧
    guiStore .ALGORITHM_XOR [1, 2, 3, 4] 4 1 = none ∧
    singleBitUpdate .ALGORITHM_XOR [1, 2, 3, 4] 99 0 99 0 = none ∧
    guiFirstPos 6 4 99 0 99 = some 6 ∧
    singleBitUpdate .ALGORITHM_ONE [7, 7, 0xFF, 0xDA, 5, 6] 99 0 99 0 = none ∧
    singleBitUpdate .ALGORITHM_XOR [1, 2, 3, 4] 98 0 99 0 = some ([1, 2, 3, 5], 1) := by
  refine ⟨by rfl, by rfl, by rfl, by rfl, by rfl, by rfl, by rfl⟩

end Qlitch
